import Mathlib

/-!
# Verification of the FOV / visibility / awareness core (`src/fov/mod.rs`)

Shallow embedding of the field-of-view engine, the per-player tri-state
visibility grid and the awareness builder of the repository, together with
proofs about the claims of the specification.

Modelling conventions, in order of appearance in the source file:

* `i32` tile coordinates are embedded as `Int`.  The specification's data
  model declares tile coordinates to be "signed integers … no inherent
  bounds (world is conceptually infinite)", so no wrap-around is modelled.
* `FxHashSet<(i32, i32)>` is embedded as `Finset (Int × Int)`; all uses in
  the source are order-independent (membership tests and inserts).
* The per-player visibility hash map (`FxHashMap<(i32,i32), TileVisibility>`
  with absent entries read as `Unexplored`) is embedded as its total lookup
  function `(Int × Int) → TileVisibility`.  The two loops of
  `VisibilityGrid::update` (demote all `Visible` values, then insert every
  member of the new fov set as `Visible`) act pointwise and are embedded as
  the corresponding two pointwise phases.
* The entity map is embedded as an association list `List (Nat × Entity)`
  (`EntityID` is `usize`); `build_awareness` pushes one record per
  qualifying entity in iteration order, which is `List.filterMap`.
  `Entity` fields not read by the functions under verification
  (`name`, the payload of `EntityType::Player`) are omitted.
* `f64` slope arithmetic in `cast_light` is embedded exactly.  The only
  slope values the procedure ever forms are `1.0`, `0.0` and the cell
  bounds `(dx ∓ 0.5) / (dy ± 0.5)`, and the only operations on them are
  comparison and `((-j) * start_slope + 0.5).round()`; all of these are
  ratios of integers bounded by the radius, far above the resolution where
  `f64` could disagree with exact rational arithmetic on the comparisons
  the algorithm makes.  A slope is embedded as an integer fraction
  (`Slope`, kept sign-normalised so that denominators of all reachable
  values are positive), compared by cross-multiplication, and
  `f64::round` (rounding half-way cases away from zero) is
  `roundHalfAway`.
* The recursive `cast_light` procedure contains a `for` loop over rows and
  a `while` loop over columns, and recurses into itself from inside the
  column loop.  It is embedded as a single step function `cast_light` over
  an explicit control-state type `Phase` (`Phase.start` = function entry,
  `Phase.row` = top of the `for` loop, `Phase.col` = top of the `while`
  loop), structurally recursive on a fuel argument so that it is kernel
  executable.  `fovFuel` fuel is proved sufficient (`cast_light_stable`),
  which also settles the termination claim.
-/

namespace Gamik

/-- World coordinate pair, `(i32, i32)` in the source. -/
abbrev Coord := Int × Int

/-- `struct Point { x: i32, y: i32 }`. -/
structure Point where
  x : Int
  y : Int
deriving DecidableEq, Repr

/-- `pub const DEFAULT_FOV_RADIUS: i32 = 12;`. -/
def DEFAULT_FOV_RADIUS : Int := 12

/-- `pub const FOV_NETWORK_MARGIN: i32 = 2;`. -/
def FOV_NETWORK_MARGIN : Int := 2

/-- Three-state visibility for a single tile (`enum TileVisibility`). -/
inductive TileVisibility where
  | Unexplored
  | Remembered
  | Visible
deriving DecidableEq, Repr

/-- `impl Default for TileVisibility` returns `Unexplored`. -/
def TileVisibility.default : TileVisibility := .Unexplored

/-- Per-player persistent visibility state (`struct VisibilityGrid`).  The
hash map from coordinates to `TileVisibility` is embedded as its total
lookup function; an absent entry reads as `Unexplored`. -/
structure VisibilityGrid where
  tiles : Coord → TileVisibility

/-- `VisibilityGrid::get`: the visibility state of the given tile
(`unwrap_or(TileVisibility::Unexplored)` is the function default). -/
def VisibilityGrid.get (g : VisibilityGrid) (pos : Point) : TileVisibility :=
  g.tiles (pos.x, pos.y)

/-- `VisibilityGrid::update`: first demote every `Visible` entry to
`Remembered` (the first loop only rewrites values, so it acts pointwise;
entries absent from the map read `Unexplored` and are untouched by it),
then insert every tile of `fov_set` as `Visible` (the second loop inserts
the same value for every key, so its effect is pointwise membership). -/
def VisibilityGrid.update (g : VisibilityGrid) (fov_set : Finset Coord) :
    VisibilityGrid :=
  let demoted : Coord → TileVisibility := fun p =>
    match g.tiles p with
    | .Visible => .Remembered
    | v => v
  ⟨fun p => if p ∈ fov_set then .Visible else demoted p⟩

/-- `enum AwarenessSource`. -/
inductive AwarenessSource where
  | Sight
  | Sound
deriving DecidableEq, Repr

/-- An entity of the snapshot; `EntityID` is `usize`.  Only the fields read
by the verified functions are carried. -/
structure Entity where
  position : Point
deriving DecidableEq, Repr

/-- `struct AwareEntity`. -/
structure AwareEntity where
  entity_id : Nat
  position : Point
  source : AwarenessSource
deriving DecidableEq, Repr

/-- `build_awareness`: one `AwareEntity` tagged `Sight` is pushed for every
entity that is inside the fov set or inside the square margin window of
half-width `DEFAULT_FOV_RADIUS + margin` around the player. -/
def build_awareness (fov_set : Finset Coord) (entities : List (Nat × Entity))
    (margin : Int) (player_pos : Point) : List AwareEntity :=
  entities.filterMap fun e =>
    let p := e.2.position
    let dx := |p.x - player_pos.x|
    let dy := |p.y - player_pos.y|
    let in_fov := (p.x, p.y) ∈ fov_set
    let in_margin := dx ≤ DEFAULT_FOV_RADIUS + margin ∧
      dy ≤ DEFAULT_FOV_RADIUS + margin
    if in_fov ∨ in_margin then
      some ⟨e.1, p, .Sight⟩
    else
      none

/-- An exact `f64` value appearing as a slope in `cast_light`, as the
integer fraction `num / den`.  Every value constructed by the procedure
has a positive denominator (`mkSlope` normalises the sign). -/
structure Slope where
  num : Int
  den : Int
deriving DecidableEq, Repr

/-- Build the slope `n / d`, moving the sign into the numerator. -/
def mkSlope (n d : Int) : Slope :=
  if d < 0 then ⟨-n, -d⟩ else ⟨n, d⟩

/-- `f64` comparison `a < b` by cross-multiplication (exact for the
positive-denominator fractions the procedure constructs). -/
def Slope.lt (a b : Slope) : Prop :=
  a.num * b.den < b.num * a.den

instance (a b : Slope) : Decidable (a.lt b) :=
  inferInstanceAs (Decidable (_ < _))

/-- The `f64` literal `1.0`. -/
def slope1 : Slope := ⟨1, 1⟩

/-- The `f64` literal `0.0`. -/
def slope0 : Slope := ⟨0, 1⟩

/-- `l_slope = (dx as f64 - 0.5) / (dy as f64 + 0.5)` at `dy = -j`:
the fraction `(2*dx - 1) / (1 - 2*j)`. -/
def l_slope (dx j : Int) : Slope := mkSlope (2 * dx - 1) (1 - 2 * j)

/-- `r_slope = (dx as f64 + 0.5) / (dy as f64 - 0.5)` at `dy = -j`:
the fraction `(2*dx + 1) / (-1 - 2*j)`. -/
def r_slope (dx j : Int) : Slope := mkSlope (2 * dx + 1) (-1 - 2 * j)

/-- `f64::round` (round half-way cases away from zero) of the fraction
`n / d`, for `d > 0` (every call site divides by a positive `2 * den`). -/
def roundHalfAway (n d : Int) : Int :=
  if n < 0 then -((d - 2 * n).ediv (2 * d)) else (2 * n + d).ediv (2 * d)

/-- `let col_min = ((-j as f64) * start_slope + 0.5).round() as i32`:
`(-j) * (num/den) + 1/2 = (den - 2*j*num) / (2*den)`, rounded. -/
def col_min (j : Int) (s : Slope) : Int :=
  roundHalfAway (s.den - 2 * j * s.num) (2 * s.den)

/-- `transform_octant`: map octant-local `(col, row)` offsets into world
`(dx, dy)`; the Rust `match` has a wildcard arm for octant 7. -/
def transform_octant (col row : Int) (octant : Nat) : Int × Int :=
  match octant with
  | 0 => (col, row)
  | 1 => (row, col)
  | 2 => (row, -col)
  | 3 => (col, -row)
  | 4 => (-col, -row)
  | 5 => (-row, -col)
  | 6 => (-row, col)
  | _ => (-col, row)

/-- Control state of the `cast_light` procedure.

* `start row start_slope end_slope`: function entry (the struct
  `ShadowcastParams` minus the per-call constants).
* `row j start_slope end_slope prev_blocked next_start`: top of the
  `for j in row..=radius` loop, about to process row `j`; `start_slope`
  and `next_start` are the current values of the mutable locals.
* `col j dx start_slope end_slope prev_blocked next_start blocked`: top of
  the `while dx <= 0` loop inside row `j`. -/
inductive Phase where
  | start (row : Int) (start_slope end_slope : Slope)
  | row (j : Int) (start_slope end_slope : Slope) (prev_blocked : Bool)
      (next_start : Slope)
  | col (j dx : Int) (start_slope end_slope : Slope) (prev_blocked : Bool)
      (next_start : Slope) (blocked : Bool)

/-- One recursive shadowcast invocation (`cast_light`), embedded as a step
function over `Phase` and structurally recursive on a fuel argument.  Each
transition of the Rust control flow consumes one unit of fuel; with fuel
`0` the current visible set is returned unchanged (`fovFuel` fuel is
proved sufficient below, so this case is never reached from
`compute_fov`).

Branches of the `col` case, in source order: the `while dx <= 0` bound;
the `start_slope < r_slope` `continue`; the `end_slope > l_slope` `break`
(followed by the `if blocked break` of the row loop); the radius test and
insertion; the `prev_blocked` handling; the blocked-recursion branch
(guarded by `is_opaque && j < radius`). -/
def cast_light ( is_opaque : Int → Int → Bool) (ox oy radius : Int)
    (octant : Nat) : Nat → Phase → Finset Coord → Finset Coord
  | 0, _, vis => vis
  | n + 1, .start row sS eS, vis =>
    if sS.lt eS ∨ row > radius then vis
    else cast_light is_opaque ox oy radius octant n (.row row sS eS false sS) vis
  | n + 1, .row j sS eS pB nS, vis =>
    if j > radius then vis
    else
      cast_light is_opaque ox oy radius octant n
        (.col j (col_min j sS) sS eS pB nS false) vis
  | n + 1, .col j dx sS eS pB nS blocked, vis =>
    if dx > 0 then
      if blocked then vis
      else cast_light is_opaque ox oy radius octant n (.row (j + 1) sS eS false nS) vis
    else
      let m := transform_octant dx (-j) octant
      let wx := ox + m.1
      let wy := oy + m.2
      let l := l_slope dx j
      let r := r_slope dx j
      if sS.lt r then
        cast_light is_opaque ox oy radius octant n (.col j (dx + 1) sS eS pB nS blocked) vis
      else if l.lt eS then
        if blocked then vis
        else cast_light is_opaque ox oy radius octant n (.row (j + 1) sS eS false nS) vis
      else
        let vis1 := if dx * dx + j * j ≤ radius * radius then insert (wx, wy) vis else vis
        if pB then
          if is_opaque wx wy then
            cast_light is_opaque ox oy radius octant n (.col j (dx + 1) sS eS pB r blocked) vis1
          else
            cast_light is_opaque ox oy radius octant n (.col j (dx + 1) nS eS false nS blocked) vis1
        else if is_opaque wx wy ∧ j < radius then
          let vis2 := cast_light is_opaque ox oy radius octant n (.start (j + 1) sS l) vis1
          cast_light is_opaque ox oy radius octant n (.col j (dx + 1) sS eS pB r true) vis2
        else
          cast_light is_opaque ox oy radius octant n (.col j (dx + 1) sS eS pB nS blocked) vis1

/-- Fuel bounds for the three phase kinds, indexed by the number `t` of
rows still to be processed (`t = radius + 1 - row`).  The first component
bounds a `start` phase, the second a `row` phase; a `col` phase at row `j`
with `c = (1 - dx).toNat` columns left to walk is bounded by
`(c + 1) * (fst + snd + 1)` of the value at `t - 1`. -/
def castNeed (radius : Int) : Nat → Nat × Nat
  | 0 => (2, 1)
  | t + 1 =>
    let p := castNeed radius t
    let r := (radius.toNat + 4) * (p.1 + p.2 + 1) + 1
    (r + 1, r)

/-- Fuel with which `compute_fov` runs each octant; proved sufficient in
`cast_light_stable`. -/
def fovFuel (radius : Int) : Nat := (castNeed radius radius.toNat).1

/-- `compute_fov`: insert the origin, then run the shadowcast procedure for
all eight octants with `row = 1`, `start_slope = 1.0`, `end_slope = 0.0`. -/
def compute_fov (origin : Point) (radius : Int)
    ( is_opaque : Int → Int → Bool) : Finset Coord :=
  (List.range 8).foldl
    (fun vis octant =>
      cast_light is_opaque origin.x origin.y radius octant (fovFuel radius)
        (.start 1 slope1 slope0) vis)
    {(origin.x, origin.y)}

/-! ## Basic lemmas about the embedding -/

/-- The visible set only grows: every `cast_light` step only inserts. -/
theorem cast_light_subset ( is_opaque : Int → Int → Bool) (ox oy radius : Int)
    (octant : Nat) :
    ∀ (n : Nat) (ph : Phase) (vis : Finset Coord),
      vis ⊆ cast_light is_opaque ox oy radius octant n ph vis := by
  intro n
  induction n with
  | zero => intro ph vis; simp [cast_light]
  | succ n ih =>
    intro ph vis
    cases ph with
    | start row sS eS =>
      simp only [cast_light]
      split
      · exact subset_rfl
      · exact ih _ _
    | row j sS eS pB nS =>
      simp only [cast_light]
      split
      · exact subset_rfl
      · exact ih _ _
    | col j dx sS eS pB nS blocked =>
      simp only [cast_light]
      split
      · split
        · exact subset_rfl
        · exact ih _ _
      · split
        · exact ih _ _
        · split
          · split
            · exact subset_rfl
            · exact ih _ _
          · have hvis1 : vis ⊆
                (if dx * dx + j * j ≤ radius * radius then
                  insert (ox + (transform_octant dx (-j) octant).1,
                    oy + (transform_octant dx (-j) octant).2) vis
                else vis) := by
              split
              · exact Finset.subset_insert _ _
              · exact subset_rfl
            split
            · split
              · exact hvis1.trans (ih _ _)
              · exact hvis1.trans (ih _ _)
            · split
              · exact hvis1.trans ((ih _ _).trans (ih _ _))
              · exact hvis1.trans (ih _ _)

/-- The octant fold of `compute_fov` only grows the visible set. -/
theorem subset_octant_foldl ( is_opaque : Int → Int → Bool) (ox oy radius : Int)
    (l : List Nat) (vis : Finset Coord) :
    vis ⊆ l.foldl
      (fun v octant =>
        cast_light is_opaque ox oy radius octant (fovFuel radius)
          (.start 1 slope1 slope0) v) vis := by
  induction l generalizing vis with
  | nil => exact subset_rfl
  | cons a l ih =>
    exact (cast_light_subset is_opaque ox oy radius a (fovFuel radius) _ vis).trans
      (ih _)

/-- Net per-tile effect of `VisibilityGrid.update`. -/
theorem update_get (g : VisibilityGrid) (s : Finset Coord) (t : Point) :
    (g.update s).get t =
      if (t.x, t.y) ∈ s then .Visible
      else if g.get t = .Visible then .Remembered
      else g.get t := by
  by_cases hm : (t.x, t.y) ∈ s
  · simp [VisibilityGrid.update, VisibilityGrid.get, hm]
  · rcases hv : g.tiles (t.x, t.y) <;>
      simp [VisibilityGrid.update, VisibilityGrid.get, hm, hv]

/-! ## Claim C5: per-tile effect of `VisibilityGrid.update` -/

/-- C5: after `update s`, a tile reads `Visible` if it is in `s` (regardless
of its prior state), `Remembered` if it is not in `s` and was `Visible`
before, and is unchanged otherwise. -/
theorem visibility_grid_update_get (g : VisibilityGrid) (s : Finset Coord)
    (t : Point) :
    (g.update s).get t =
      if (t.x, t.y) ∈ s then .Visible
      else if g.get t = .Visible then .Remembered
      else g.get t :=
  update_get g s t

/-! ## Claim C6: no tile ever returns to `Unexplored` -/

/-- C6: once a tile reads `Remembered` or `Visible`, it never reads
`Unexplored` again after any further sequence of updates; and a single
update moves a `Visible` tile only to `Visible` or to `Remembered`. -/
theorem visibility_grid_never_unexplored (g : VisibilityGrid) (t : Point)
    (l : List (Finset Coord)) (s : Finset Coord) :
    (g.get t ≠ .Unexplored →
      (l.foldl VisibilityGrid.update g).get t ≠ .Unexplored) ∧
    (g.get t = .Visible →
      (g.update s).get t = .Visible ∨ (g.update s).get t = .Remembered) := by
  have step : ∀ (g' : VisibilityGrid) (s' : Finset Coord),
      g'.get t ≠ .Unexplored → (g'.update s').get t ≠ .Unexplored := by
    intro g' s' h
    rw [update_get]
    split
    · simp
    · split
      · simp
      · exact h
  refine ⟨?_, ?_⟩
  · intro h
    induction l generalizing g with
    | nil => exact h
    | cons a l ih => exact ih _ (step g a h)
  · intro h
    rw [update_get]
    split <;> simp [h]

/-- Witness for C6 at a concrete grid, tile and update sequence. -/
theorem visibility_grid_never_unexplored_witness :
    ((VisibilityGrid.mk fun _ => .Visible).get ⟨0, 0⟩ ≠ .Unexplored →
      (([∅] : List (Finset Coord)).foldl VisibilityGrid.update
        (VisibilityGrid.mk fun _ => .Visible)).get ⟨0, 0⟩ ≠ .Unexplored) ∧
    ((VisibilityGrid.mk fun _ => .Visible).get ⟨0, 0⟩ = .Visible →
      ((VisibilityGrid.mk fun _ => .Visible).update ∅).get ⟨0, 0⟩ = .Visible ∨
      ((VisibilityGrid.mk fun _ => .Visible).update ∅).get ⟨0, 0⟩ = .Remembered) :=
  visibility_grid_never_unexplored (VisibilityGrid.mk fun _ => .Visible)
    ⟨0, 0⟩ [∅] ∅

/-! ## Claim C7: the origin is always in the computed visible set -/

/-- C7: for every origin, every radius (of any sign) and every opacity
predicate, the origin tile is a member of `compute_fov`'s result. -/
theorem compute_fov_origin_mem (origin : Point) (radius : Int)
    ( is_opaque : Int → Int → Bool) :
    (origin.x, origin.y) ∈ compute_fov origin radius is_opaque := by
  unfold compute_fov
  exact subset_octant_foldl is_opaque origin.x origin.y radius (List.range 8)
    {(origin.x, origin.y)} (Finset.mem_singleton_self _)

/-! ## Claim C8: entities at a visible tile are reported with `Sight` -/

/-- C8: every snapshot entity whose exact position is in the visible set
contributes an `AwareEntity` with its identity, its snapshot position and
source `Sight`, regardless of margin and observer position. -/
theorem build_awareness_sight_of_in_fov (fov : Finset Coord)
    (entities : List (Nat × Entity)) (margin : Int) (player_pos : Point)
    (eid : Nat) (ent : Entity) (hmem : (eid, ent) ∈ entities)
    (hfov : (ent.position.x, ent.position.y) ∈ fov) :
    (⟨eid, ent.position, .Sight⟩ : AwareEntity) ∈
      build_awareness fov entities margin player_pos := by
  unfold build_awareness
  rw [List.mem_filterMap]
  refine ⟨(eid, ent), hmem, ?_⟩
  simp only
  rw [if_pos (Or.inl hfov)]

/-- Witness for C8 at a concrete snapshot. -/
theorem build_awareness_sight_of_in_fov_witness :
    ((1, Entity.mk ⟨1, 0⟩) ∈ [(1, Entity.mk ⟨1, 0⟩)]) ∧
    (((1 : Int), (0 : Int)) ∈ ({(1, 0)} : Finset Coord)) ∧
    (⟨1, ⟨1, 0⟩, .Sight⟩ : AwareEntity) ∈
      build_awareness {(1, 0)} [(1, Entity.mk ⟨1, 0⟩)] 0 ⟨0, 0⟩ :=
  ⟨by decide, by decide,
    build_awareness_sight_of_in_fov {(1, 0)} [(1, Entity.mk ⟨1, 0⟩)] 0 ⟨0, 0⟩
      1 (Entity.mk ⟨1, 0⟩) (by decide) (by decide)⟩

/-! ## Claim C10: non-positive radius yields exactly the origin -/

/-- C10: for radius ≤ 0 the procedure returns without error and the result
is exactly the singleton of the origin tile. -/
theorem compute_fov_radius_nonpos (origin : Point) (radius : Int)
    ( is_opaque : Int → Int → Bool) (h : radius ≤ 0) :
    compute_fov origin radius is_opaque = {(origin.x, origin.y)} := by
  have hfuel : fovFuel radius = 2 := by
    rw [fovFuel, Int.toNat_of_nonpos h]
    rfl
  have hstep : ∀ (vis : Finset Coord) (octant : Nat),
      cast_light is_opaque origin.x origin.y radius octant (fovFuel radius)
        (.start 1 slope1 slope0) vis = vis := by
    intro vis octant
    rw [hfuel]
    simp only [cast_light]
    rw [if_pos (Or.inr (by omega))]
  unfold compute_fov
  rw [show (8 : Nat) = 7 + 1 from rfl, List.range_succ, List.foldl_append]
  rw [show (7 : Nat) = 6 + 1 from rfl, List.range_succ, List.foldl_append]
  rw [show (6 : Nat) = 5 + 1 from rfl, List.range_succ, List.foldl_append]
  rw [show (5 : Nat) = 4 + 1 from rfl, List.range_succ, List.foldl_append]
  rw [show (4 : Nat) = 3 + 1 from rfl, List.range_succ, List.foldl_append]
  rw [show (3 : Nat) = 2 + 1 from rfl, List.range_succ, List.foldl_append]
  rw [show (2 : Nat) = 1 + 1 from rfl, List.range_succ, List.foldl_append]
  rw [show (1 : Nat) = 0 + 1 from rfl, List.range_succ, List.foldl_append]
  simp only [List.range_zero, List.foldl_nil, List.foldl_cons, hstep]

/-- Witness for C10 at radius `-1`. -/
theorem compute_fov_radius_nonpos_witness :
    ((-1 : Int) ≤ 0) ∧
    compute_fov ⟨5, 5⟩ (-1) (fun _ _ => true) = {(5, 5)} :=
  ⟨by decide, compute_fov_radius_nonpos ⟨5, 5⟩ (-1) (fun _ _ => true) (by decide)⟩

/-! ## Claim C2: which entities `build_awareness` reports

The source compares the margin window against the fixed constant
`DEFAULT_FOV_RADIUS`, not against the radius the visible set was computed
with, so the claim as stated (window of half-width `r + margin` for the
player's configured radius `r`) fails whenever `r ≠ DEFAULT_FOV_RADIUS`.
The counterexample uses a player configured with radius `0`. -/

/-- C2 (counterexample): with configured radius `0` and margin `0`, the
entity at `(5, 5)` is reported by `build_awareness` although it is neither
in the visible set computed with radius `0` nor inside the square window
of half-width `0 + 0 = 0` — refuting the claimed "if and only if". -/
theorem build_awareness_margin_uses_default_radius_cex :
    ((⟨1, ⟨5, 5⟩, .Sight⟩ : AwareEntity) ∈
      build_awareness (compute_fov ⟨0, 0⟩ 0 (fun _ _ => false))
        [(1, Entity.mk ⟨5, 5⟩)] 0 ⟨0, 0⟩) ∧
    ¬((((5 : Int), (5 : Int)) ∈ compute_fov ⟨0, 0⟩ 0 (fun _ _ => false)) ∨
      (|(5 : Int) - 0| ≤ 0 + 0 ∧ |(5 : Int) - 0| ≤ 0 + 0)) := by
  have hfov : compute_fov ⟨0, 0⟩ 0 (fun _ _ => false) = {((0 : Int), (0 : Int))} :=
    compute_fov_radius_nonpos ⟨0, 0⟩ 0 (fun _ _ => false) (by decide)
  rw [hfov]
  refine ⟨?_, by decide⟩
  unfold build_awareness
  rw [List.mem_filterMap]
  refine ⟨(1, Entity.mk ⟨5, 5⟩), by decide, ?_⟩
  simp only
  rw [if_pos (Or.inr (by decide))]

/-- C2 (amended): a snapshot entity is reported iff its position is in the
visible set or both its axis-aligned distances from the observer are at
most `DEFAULT_FOV_RADIUS + margin` (the source uses the fixed default
radius constant, not the radius the visible set was computed with). -/
theorem build_awareness_mem_iff (fov : Finset Coord)
    (entities : List (Nat × Entity)) (margin : Int) (player_pos : Point)
    (eid : Nat) (ent : Entity) (hmem : (eid, ent) ∈ entities) :
    ((⟨eid, ent.position, .Sight⟩ : AwareEntity) ∈
        build_awareness fov entities margin player_pos) ↔
      ((ent.position.x, ent.position.y) ∈ fov ∨
        (|ent.position.x - player_pos.x| ≤ DEFAULT_FOV_RADIUS + margin ∧
         |ent.position.y - player_pos.y| ≤ DEFAULT_FOV_RADIUS + margin)) := by
  unfold build_awareness
  rw [List.mem_filterMap]
  constructor
  · rintro ⟨⟨eid2, ent2⟩, hmem2, hopt⟩
    simp only at hopt
    split at hopt
    · rename_i hcond
      rw [Option.some_inj, AwareEntity.mk.injEq] at hopt
      obtain ⟨-, hpos, -⟩ := hopt
      rw [← hpos]
      exact hcond
    · exact absurd hopt (by simp)
  · intro hcond
    refine ⟨(eid, ent), hmem, ?_⟩
    simp only
    rw [if_pos hcond]

/-- Witness for C2's amended claim at a concrete snapshot. -/
theorem build_awareness_mem_iff_witness :
    ((2, Entity.mk ⟨4, 4⟩) ∈ [(2, Entity.mk ⟨4, 4⟩)]) ∧
    (((⟨2, ⟨4, 4⟩, .Sight⟩ : AwareEntity) ∈
        build_awareness ∅ [(2, Entity.mk ⟨4, 4⟩)] 0 ⟨0, 0⟩) ↔
      ((((4 : Int), (4 : Int)) ∈ (∅ : Finset Coord)) ∨
        (|(4 : Int) - 0| ≤ DEFAULT_FOV_RADIUS + 0 ∧
         |(4 : Int) - 0| ≤ DEFAULT_FOV_RADIUS + 0))) :=
  ⟨by decide,
    build_awareness_mem_iff ∅ [(2, Entity.mk ⟨4, 4⟩)] 0 ⟨0, 0⟩ 2
      (Entity.mk ⟨4, 4⟩) (by decide)⟩

/-! ## Claim C4: visibility symmetry

The module documentation promises symmetric visibility, but the procedure
is the classical (asymmetric) recursive shadowcast: with a single opaque
tile at `(-1, 0)` and radius `3`, the origin sees `(-2, -1)` while
`(-2, -1)` does not see the origin. -/

/-- C4 (evaluation at the failing input): `(-2, -1)` is in
`compute_fov ((0,0), 3)` but `(0, 0)` is not in `compute_fov ((-2,-1), 3)`
with the same radius and the same opacity data (opaque exactly at
`(-1, 0)`), contradicting the claimed symmetry. -/
theorem compute_fov_asymmetric :
    (((-2 : Int), (-1 : Int)) ∈
      compute_fov ⟨0, 0⟩ 3 (fun x y => decide (x = -1 ∧ y = 0))) ∧
    (((0 : Int), (0 : Int)) ∉
      compute_fov ⟨-2, -1⟩ 3 (fun x y => decide (x = -1 ∧ y = 0))) := by
  constructor
  · exact Finset.mem_def.mpr (Multiset.count_pos.mp (by decide))
  · intro h
    exact (Multiset.count_eq_zero.mp (by decide)) (Finset.mem_def.mp h)

/-! ## Fuel sufficiency

`cast_light` consumes one unit of fuel per control-flow step.  We exhibit
an invariant `Inv` of all states reachable from `compute_fov`'s entry
state (`start_slope` stays a fraction ≤ 1 with positive denominator, and
`next_start ≤ start_slope`) and a measure `fuelNeed` that strictly
decreases along every transition, and conclude that results are stable
once the fuel reaches `fuelNeed` — in particular `fovFuel` suffices. -/

/-- States of `cast_light` reachable from `compute_fov`'s entry state:
rows start at 1, the column phase only runs on rows within the radius,
`start_slope` is a fraction ≤ 1 with positive denominator, and
`next_start ≤ start_slope` (cross-multiplied). -/
def Inv (radius : Int) : Phase → Prop
  | .start row sS _ => 1 ≤ row ∧ 0 < sS.den ∧ sS.num ≤ sS.den
  | .row j sS _ _ nS => 1 ≤ j ∧ 0 < sS.den ∧ sS.num ≤ sS.den ∧
      0 < nS.den ∧ nS.num * sS.den ≤ sS.num * nS.den
  | .col j _ sS _ _ nS _ => 1 ≤ j ∧ j ≤ radius ∧ 0 < sS.den ∧
      sS.num ≤ sS.den ∧ 0 < nS.den ∧ nS.num * sS.den ≤ sS.num * nS.den

/-- `A + R + 1` for the fuel pair at `t` remaining rows. -/
def castNeedBase (radius : Int) (t : Nat) : Nat :=
  (castNeed radius t).1 + (castNeed radius t).2 + 1

/-- Fuel that suffices to run `cast_light` to completion from a phase
satisfying `Inv`. -/
def fuelNeed (radius : Int) : Phase → Nat
  | .start row _ _ => (castNeed radius (radius + 1 - row).toNat).1
  | .row j _ _ _ _ => (castNeed radius (radius + 1 - j).toNat).2
  | .col j dx _ _ _ _ _ =>
      ((1 - dx).toNat + 1) * castNeedBase radius ((radius + 1 - j).toNat - 1)

theorem castNeed_fst (radius : Int) (t : Nat) :
    (castNeed radius t).1 = (castNeed radius t).2 + 1 := by
  cases t <;> rfl

theorem castNeed_succ_snd (radius : Int) (t : Nat) :
    (castNeed radius (t + 1)).2 =
      (radius.toNat + 4) * castNeedBase radius t + 1 := by
  rfl

theorem castNeed_snd_pos (radius : Int) (t : Nat) :
    1 ≤ (castNeed radius t).2 := by
  cases t with
  | zero => exact le_refl 1
  | succ t => rw [castNeed_succ_snd]; omega

theorem castNeedBase_pos (radius : Int) (t : Nat) :
    1 ≤ castNeedBase radius t := by
  unfold castNeedBase; omega

theorem fuelNeed_pos (radius : Int) (ph : Phase) : 1 ≤ fuelNeed radius ph := by
  cases ph with
  | start row sS eS =>
    have h1 := castNeed_snd_pos radius (radius + 1 - row).toNat
    have h2 := castNeed_fst radius (radius + 1 - row).toNat
    simp only [fuelNeed]
    omega
  | row j sS eS pB nS =>
    have h1 := castNeed_snd_pos radius (radius + 1 - j).toNat
    simp only [fuelNeed]
    omega
  | col j dx sS eS pB nS bl =>
    have h1 := castNeedBase_pos radius ((radius + 1 - j).toNat - 1)
    simp only [fuelNeed]
    have h2 : 1 * 1 ≤ ((1 - dx).toNat + 1) *
        castNeedBase radius ((radius + 1 - j).toNat - 1) :=
      Nat.mul_le_mul (by omega) h1
    omega

/-- When `j ≥ 1` the `r_slope` denominator normalises to the positive
`1 + 2*j`. -/
theorem r_slope_eq (dx j : Int) (hj : 1 ≤ j) :
    r_slope dx j = ⟨-(2 * dx + 1), 1 + 2 * j⟩ := by
  unfold r_slope mkSlope
  rw [if_pos (by omega), show -(-1 - 2 * j) = 1 + 2 * j from by ring]

/-- When `j ≥ 1` the `l_slope` denominator normalises to the positive
`2*j - 1`. -/
theorem l_slope_eq (dx j : Int) (hj : 1 ≤ j) :
    l_slope dx j = ⟨1 - 2 * dx, 2 * j - 1⟩ := by
  unfold l_slope mkSlope
  rw [if_pos (by omega), show -(2 * dx - 1) = 1 - 2 * dx from by ring,
    show -(1 - 2 * j) = 2 * j - 1 from by ring]

/-- The first column of a row is at least `-j` while `start_slope ≤ 1`. -/
theorem col_min_ge (j : Int) (s : Slope) (hj : 1 ≤ j) (hd : 0 < s.den)
    (hle : s.num ≤ s.den) : -j ≤ col_min j s := by
  unfold col_min roundHalfAway
  set n : Int := s.den - 2 * j * s.num with hn
  set d : Int := 2 * s.den with hdd
  have hd2 : 0 < d := by omega
  have hnlow : s.den * (1 - 2 * j) ≤ n := by
    have : 2 * j * s.num ≤ 2 * j * s.den :=
      mul_le_mul_of_nonneg_left hle (by omega)
    nlinarith
  split
  · rename_i hneg
    have h1 : d - 2 * n ≤ 2 * j * d := by nlinarith
    have h2 : (d - 2 * n).ediv (2 * d) ≤ (2 * j * d).ediv (2 * d) :=
      Int.ediv_le_ediv (by omega) h1
    have h3 : (2 * j * d).ediv (2 * d) = j := by
      rw [show 2 * j * d = j * (2 * d) by ring]
      exact Int.mul_ediv_cancel j (by omega)
    omega
  · rename_i hpos
    have : 0 ≤ (2 * n + d).ediv (2 * d) := Int.ediv_nonneg (by omega) (by omega)
    omega

/-! Fuel bookkeeping for the individual transitions. -/

theorem start_fuel_row (radius row : Int) (m : Nat)
    (hfuel : (castNeed radius (radius + 1 - row).toNat).1 ≤ m + 1) :
    (castNeed radius (radius + 1 - row).toNat).2 ≤ m := by
  have h1 := castNeed_fst radius (radius + 1 - row).toNat
  omega

theorem row_fuel_col (radius j : Int) (s : Slope) (m : Nat) (hj1 : 1 ≤ j)
    (hjr : j ≤ radius) (hd : 0 < s.den) (hle : s.num ≤ s.den)
    (hfuel : (castNeed radius (radius + 1 - j).toNat).2 ≤ m + 1) :
    ((1 - col_min j s).toNat + 1) *
      castNeedBase radius ((radius + 1 - j).toNat - 1) ≤ m := by
  have hcm := col_min_ge j s hj1 hd hle
  have ht : (radius + 1 - j).toNat = (radius - j).toNat + 1 := by omega
  rw [ht] at hfuel ⊢
  rw [Nat.add_sub_cancel]
  rw [castNeed_succ_snd] at hfuel
  have hc : (1 - col_min j s).toNat + 1 ≤ radius.toNat + 4 := by omega
  have h2 := Nat.mul_le_mul_right (castNeedBase radius (radius - j).toNat) hc
  omega

theorem col_fuel_step (radius j dx : Int) (m : Nat) (hdx : ¬dx > 0)
    (hfuel : ((1 - dx).toNat + 1) *
      castNeedBase radius ((radius + 1 - j).toNat - 1) ≤ m + 1) :
    ((1 - (dx + 1)).toNat + 1) *
      castNeedBase radius ((radius + 1 - j).toNat - 1) ≤ m := by
  have hb := castNeedBase_pos radius ((radius + 1 - j).toNat - 1)
  rw [show (1 - (dx + 1)).toNat + 1 = (1 - dx).toNat from by omega]
  have h2 : (1 - dx).toNat * castNeedBase radius ((radius + 1 - j).toNat - 1) +
      castNeedBase radius ((radius + 1 - j).toNat - 1) =
      ((1 - dx).toNat + 1) *
        castNeedBase radius ((radius + 1 - j).toNat - 1) := by ring
  omega

theorem col_fuel_row (radius j dx : Int) (m : Nat) (hjr : j ≤ radius)
    (hfuel : ((1 - dx).toNat + 1) *
      castNeedBase radius ((radius + 1 - j).toNat - 1) ≤ m + 1) :
    (castNeed radius (radius + 1 - (j + 1)).toNat).2 ≤ m := by
  have ht : (radius + 1 - (j + 1)).toNat = (radius + 1 - j).toNat - 1 := by omega
  rw [ht]
  have hb := castNeedBase_pos radius ((radius + 1 - j).toNat - 1)
  have hmul := Nat.le_mul_of_pos_left
    (castNeedBase radius ((radius + 1 - j).toNat - 1))
    (show 0 < (1 - dx).toNat + 1 by omega)
  have hRb : (castNeed radius ((radius + 1 - j).toNat - 1)).2 <
      castNeedBase radius ((radius + 1 - j).toNat - 1) := by
    unfold castNeedBase; omega
  omega

theorem col_fuel_start (radius j dx : Int) (m : Nat) (hjr : j ≤ radius)
    (hfuel : ((1 - dx).toNat + 1) *
      castNeedBase radius ((radius + 1 - j).toNat - 1) ≤ m + 1) :
    (castNeed radius (radius + 1 - (j + 1)).toNat).1 ≤ m := by
  have ht : (radius + 1 - (j + 1)).toNat = (radius + 1 - j).toNat - 1 := by omega
  rw [ht]
  have hb := castNeedBase_pos radius ((radius + 1 - j).toNat - 1)
  have hmul := Nat.le_mul_of_pos_left
    (castNeedBase radius ((radius + 1 - j).toNat - 1))
    (show 0 < (1 - dx).toNat + 1 by omega)
  have hAb : (castNeed radius ((radius + 1 - j).toNat - 1)).1 <
      castNeedBase radius ((radius + 1 - j).toNat - 1) := by
    unfold castNeedBase; omega
  omega

/-- `next_start ≤ start_slope ≤ 1` gives `next_start ≤ 1`
(cross-multiplied, with positive denominators). -/
theorem next_start_le_one (sS nS : Slope) (hsd : 0 < sS.den)
    (hsle : sS.num ≤ sS.den) (hnd : 0 < nS.den)
    (hnle : nS.num * sS.den ≤ sS.num * nS.den) : nS.num ≤ nS.den := by
  have h4 : sS.num * nS.den ≤ sS.den * nS.den :=
    mul_le_mul_of_nonneg_right hsle (by omega)
  have h5 : nS.num * sS.den ≤ nS.den * sS.den := by nlinarith
  exact le_of_mul_le_mul_right h5 hsd

/-- Fuel stability: one more unit of fuel does not change the result once
the fuel has reached `fuelNeed`, for any state satisfying `Inv`. -/
theorem cast_light_stable ( is_opaque : Int → Int → Bool) (ox oy radius : Int)
    (octant : Nat) :
    ∀ (n : Nat) (ph : Phase) (vis : Finset Coord), Inv radius ph →
      fuelNeed radius ph ≤ n →
      cast_light is_opaque ox oy radius octant (n + 1) ph vis =
        cast_light is_opaque ox oy radius octant n ph vis := by
  intro n
  induction n using Nat.strong_induction_on with
  | _ n ih =>
    intro ph vis hInv hfuel
    obtain ⟨m, rfl⟩ : ∃ m, n = m + 1 :=
      ⟨n - 1, by have := fuelNeed_pos radius ph; omega⟩
    cases ph with
    | start row sS eS =>
      obtain ⟨hrow, hsd, hsle⟩ := hInv
      conv_lhs => rw [cast_light]
      conv_rhs => rw [cast_light]
      split
      · rfl
      · refine ih m (Nat.lt_succ_self m) _ _ ?_ ?_
        · exact ⟨hrow, hsd, hsle, hsd, le_refl _⟩
        · exact start_fuel_row radius row m hfuel
    | row j sS eS pB nS =>
      obtain ⟨hj, hsd, hsle, hnd, hnle⟩ := hInv
      conv_lhs => rw [cast_light]
      conv_rhs => rw [cast_light]
      split
      · rfl
      · rename_i hguard
        refine ih m (Nat.lt_succ_self m) _ _ ?_ ?_
        · exact ⟨hj, by omega, hsd, hsle, hnd, hnle⟩
        · exact row_fuel_col radius j sS m hj (by omega) hsd hsle hfuel
    | col j dx sS eS pB nS blocked =>
      obtain ⟨hj, hjr, hsd, hsle, hnd, hnle⟩ := hInv
      simp only [fuelNeed] at hfuel
      conv_lhs => rw [cast_light]
      conv_rhs => rw [cast_light]
      dsimp only
      split
      · -- dx > 0: row finished
        split
        · rfl
        · rename_i hdx hbl
          refine ih m (Nat.lt_succ_self m) _ _ ?_ ?_
          · exact ⟨by omega, hsd, hsle, hnd, hnle⟩
          · exact col_fuel_row radius j dx m hjr hfuel
      · rename_i hdx
        split
        · -- skip: `start_slope < r_slope`, continue with dx + 1
          refine ih m (Nat.lt_succ_self m) _ _ ?_ ?_
          · exact ⟨hj, hjr, hsd, hsle, hnd, hnle⟩
          · exact col_fuel_step radius j dx m hdx hfuel
        · rename_i hskip
          split
          · -- break: `end_slope > l_slope`
            split
            · rfl
            · refine ih m (Nat.lt_succ_self m) _ _ ?_ ?_
              · exact ⟨by omega, hsd, hsle, hnd, hnle⟩
              · exact col_fuel_row radius j dx m hjr hfuel
          · -- insertion happened (inside `vis1`), now the occlusion logic
            have hrd : 0 < (r_slope dx j).den := by
              rw [r_slope_eq dx j hj]
              dsimp only
              omega
            have hrle : (r_slope dx j).num * sS.den ≤
                sS.num * (r_slope dx j).den := by
              unfold Slope.lt at hskip; omega
            split
            · -- prev_blocked
              split
              · -- still opaque: next_start := r_slope
                refine ih m (Nat.lt_succ_self m) _ _ ?_ ?_
                · exact ⟨hj, hjr, hsd, hsle, hrd, hrle⟩
                · exact col_fuel_step radius j dx m hdx hfuel
              · -- run of blocked cells ended: start_slope := next_start
                have hn1 := next_start_le_one sS nS hsd hsle hnd hnle
                refine ih m (Nat.lt_succ_self m) _ _ ?_ ?_
                · exact ⟨hj, hjr, hnd, hn1, hnd, le_refl _⟩
                · exact col_fuel_step radius j dx m hdx hfuel
            · split
              · -- new blocker: recurse into the next row, then continue
                rename_i hpb hdive
                rw [ih m (Nat.lt_succ_self m) (.start (j + 1) sS (l_slope dx j)) _
                  ⟨by omega, hsd, hsle⟩
                  (col_fuel_start radius j dx m hjr hfuel)]
                refine ih m (Nat.lt_succ_self m) _ _ ?_ ?_
                · exact ⟨hj, hjr, hsd, hsle, hrd, hrle⟩
                · exact col_fuel_step radius j dx m hdx hfuel
              · -- clear cell
                refine ih m (Nat.lt_succ_self m) _ _ ?_ ?_
                · exact ⟨hj, hjr, hsd, hsle, hnd, hnle⟩
                · exact col_fuel_step radius j dx m hdx hfuel

/-- Fuel beyond `fuelNeed` never changes the result. -/
theorem cast_light_stable_ge ( is_opaque : Int → Int → Bool)
    (ox oy radius : Int) (octant : Nat) (ph : Phase) (vis : Finset Coord)
    (hInv : Inv radius ph) (n k : Nat) (hn : fuelNeed radius ph ≤ n)
    (hk : n ≤ k) :
    cast_light is_opaque ox oy radius octant k ph vis =
      cast_light is_opaque ox oy radius octant n ph vis := by
  induction k with
  | zero =>
    rw [show n = 0 from by omega]
  | succ k ihk =>
    rcases Nat.lt_or_ge n (k + 1) with h | h
    · rw [cast_light_stable is_opaque ox oy radius octant k ph vis hInv
        (by omega), ihk (by omega)]
    · rw [show n = k + 1 from by omega]

/-- Pointwise-equal step functions fold identically. -/
theorem foldl_step_congr (f g : Finset Coord → Nat → Finset Coord)
    (h : ∀ v a, f v a = g v a) (l : List Nat) (b : Finset Coord) :
    l.foldl f b = l.foldl g b := by
  induction l generalizing b with
  | nil => rfl
  | cons a l ihl => rw [List.foldl_cons, List.foldl_cons, h, ihl]

/-- The entry state of every octant satisfies the invariant. -/
theorem Inv_entry (radius : Int) : Inv radius (.start 1 slope1 slope0) :=
  ⟨le_refl 1, by decide, by decide⟩

/-- `fovFuel` is exactly the fuel the entry state needs. -/
theorem fovFuel_eq_fuelNeed (radius : Int) :
    fuelNeed radius (.start 1 slope1 slope0) = fovFuel radius := by
  simp only [fuelNeed, fovFuel]
  rw [show radius + 1 - 1 = radius from by ring]

/-! ## Claim C9: `compute_fov` is total, with fuel bounded from the radius -/

/-- C9: the shadowcast procedure completes within the explicit fuel bound
`fovFuel radius` computed from the radius: running every octant with any
fuel `n ≥ fovFuel radius` returns exactly `compute_fov`'s result, for
every origin, every radius of any sign, and every opacity predicate —
so the procedure is a total function of its inputs. -/
theorem compute_fov_fuel_stable (origin : Point) (radius : Int)
    ( is_opaque : Int → Int → Bool) (n : Nat) (h : fovFuel radius ≤ n) :
    (List.range 8).foldl
      (fun vis octant =>
        cast_light is_opaque origin.x origin.y radius octant n
          (.start 1 slope1 slope0) vis)
      {(origin.x, origin.y)} = compute_fov origin radius is_opaque := by
  unfold compute_fov
  apply foldl_step_congr
  intro v a
  exact cast_light_stable_ge is_opaque origin.x origin.y radius a
    (.start 1 slope1 slope0) v (Inv_entry radius) (fovFuel radius) n
    (le_of_eq (fovFuel_eq_fuelNeed radius)) h

/-- Witness for C9 at radius 1 with surplus fuel. -/
theorem compute_fov_fuel_stable_witness :
    (fovFuel 1 ≤ 35) ∧
    (List.range 8).foldl
      (fun vis octant =>
        cast_light (fun _ _ => false) 0 0 1 octant 35
          (.start 1 slope1 slope0) vis)
      {((0 : Int), (0 : Int))} = compute_fov ⟨0, 0⟩ 1 (fun _ _ => false) :=
  ⟨by decide, compute_fov_fuel_stable ⟨0, 0⟩ 1 (fun _ _ => false) 35 (by decide)⟩

/-! ## Running `cast_light` with exactly sufficient fuel

`cast_run` is `cast_light` at fuel `fuelNeed`; by `cast_light_stable_ge`
it satisfies fuel-free unfolding equations on every state satisfying
`Inv`, which the open-field and single-wall analyses below use. -/

def cast_run ( is_opaque : Int → Int → Bool) (ox oy radius : Int)
    (octant : Nat) (ph : Phase) (vis : Finset Coord) : Finset Coord :=
  cast_light is_opaque ox oy radius octant (fuelNeed radius ph) ph vis

theorem cast_run_start ( is_opaque : Int → Int → Bool) (ox oy radius : Int)
    (octant : Nat) (row : Int) (sS eS : Slope) (vis : Finset Coord)
    (hInv : Inv radius (.start row sS eS)) :
    cast_run is_opaque ox oy radius octant (.start row sS eS) vis =
      if sS.lt eS ∨ row > radius then vis
      else cast_run is_opaque ox oy radius octant (.row row sS eS false sS) vis := by
  obtain ⟨hrow, hsd, hsle⟩ := hInv
  unfold cast_run
  obtain ⟨M, hM⟩ : ∃ M, fuelNeed radius (.start row sS eS) = M + 1 :=
    ⟨fuelNeed radius (.start row sS eS) - 1, by
      have := fuelNeed_pos radius (.start row sS eS); omega⟩
  rw [hM]
  conv_lhs => rw [cast_light]
  split
  · rfl
  · exact cast_light_stable_ge is_opaque ox oy radius octant
      (.row row sS eS false sS) vis ⟨hrow, hsd, hsle, hsd, le_refl _⟩
      (fuelNeed radius (.row row sS eS false sS)) M (le_refl _)
      (start_fuel_row radius row M (by simp only [fuelNeed] at hM ⊢; omega))

theorem cast_run_row ( is_opaque : Int → Int → Bool) (ox oy radius : Int)
    (octant : Nat) (j : Int) (sS eS : Slope) (pB : Bool) (nS : Slope)
    (vis : Finset Coord) (hInv : Inv radius (.row j sS eS pB nS)) :
    cast_run is_opaque ox oy radius octant (.row j sS eS pB nS) vis =
      if j > radius then vis
      else cast_run is_opaque ox oy radius octant
        (.col j (col_min j sS) sS eS pB nS false) vis := by
  obtain ⟨hj, hsd, hsle, hnd, hnle⟩ := hInv
  unfold cast_run
  obtain ⟨M, hM⟩ : ∃ M, fuelNeed radius (.row j sS eS pB nS) = M + 1 :=
    ⟨fuelNeed radius (.row j sS eS pB nS) - 1, by
      have := fuelNeed_pos radius (.row j sS eS pB nS); omega⟩
  rw [hM]
  conv_lhs => rw [cast_light]
  split
  · rfl
  · rename_i hguard
    exact cast_light_stable_ge is_opaque ox oy radius octant
      (.col j (col_min j sS) sS eS pB nS false) vis
      ⟨hj, by omega, hsd, hsle, hnd, hnle⟩
      (fuelNeed radius (.col j (col_min j sS) sS eS pB nS false)) M (le_refl _)
      (row_fuel_col radius j sS M hj (by omega) hsd hsle
        (by simp only [fuelNeed] at hM ⊢; omega))

theorem cast_run_col_exit ( is_opaque : Int → Int → Bool) (ox oy radius : Int)
    (octant : Nat) (j dx : Int) (sS eS : Slope) (pB : Bool) (nS : Slope)
    (blocked : Bool) (vis : Finset Coord)
    (hInv : Inv radius (.col j dx sS eS pB nS blocked)) (hdx : dx > 0) :
    cast_run is_opaque ox oy radius octant (.col j dx sS eS pB nS blocked) vis =
      if blocked then vis
      else cast_run is_opaque ox oy radius octant (.row (j + 1) sS eS false nS) vis := by
  obtain ⟨hj, hjr, hsd, hsle, hnd, hnle⟩ := hInv
  unfold cast_run
  obtain ⟨M, hM⟩ : ∃ M, fuelNeed radius (.col j dx sS eS pB nS blocked) = M + 1 :=
    ⟨fuelNeed radius (.col j dx sS eS pB nS blocked) - 1, by
      have := fuelNeed_pos radius (.col j dx sS eS pB nS blocked); omega⟩
  rw [hM]
  conv_lhs => rw [cast_light]
  rw [if_pos hdx]
  split
  · rfl
  · exact cast_light_stable_ge is_opaque ox oy radius octant
      (.row (j + 1) sS eS false nS) vis ⟨by omega, hsd, hsle, hnd, hnle⟩
      (fuelNeed radius (.row (j + 1) sS eS false nS)) M (le_refl _)
      (col_fuel_row radius j dx M hjr (by simp only [fuelNeed] at hM ⊢; omega))

theorem cast_run_col_skip ( is_opaque : Int → Int → Bool) (ox oy radius : Int)
    (octant : Nat) (j dx : Int) (sS eS : Slope) (pB : Bool) (nS : Slope)
    (blocked : Bool) (vis : Finset Coord)
    (hInv : Inv radius (.col j dx sS eS pB nS blocked)) (hdx : ¬dx > 0)
    (hskip : sS.lt (r_slope dx j)) :
    cast_run is_opaque ox oy radius octant (.col j dx sS eS pB nS blocked) vis =
      cast_run is_opaque ox oy radius octant
        (.col j (dx + 1) sS eS pB nS blocked) vis := by
  obtain ⟨hj, hjr, hsd, hsle, hnd, hnle⟩ := hInv
  unfold cast_run
  obtain ⟨M, hM⟩ : ∃ M, fuelNeed radius (.col j dx sS eS pB nS blocked) = M + 1 :=
    ⟨fuelNeed radius (.col j dx sS eS pB nS blocked) - 1, by
      have := fuelNeed_pos radius (.col j dx sS eS pB nS blocked); omega⟩
  rw [hM]
  conv_lhs => rw [cast_light]
  rw [if_neg hdx]
  dsimp only
  rw [if_pos hskip]
  exact cast_light_stable_ge is_opaque ox oy radius octant
    (.col j (dx + 1) sS eS pB nS blocked) vis ⟨hj, hjr, hsd, hsle, hnd, hnle⟩
    (fuelNeed radius (.col j (dx + 1) sS eS pB nS blocked)) M (le_refl _)
    (col_fuel_step radius j dx M hdx (by simp only [fuelNeed] at hM ⊢; omega))

theorem cast_run_col_break ( is_opaque : Int → Int → Bool) (ox oy radius : Int)
    (octant : Nat) (j dx : Int) (sS eS : Slope) (pB : Bool) (nS : Slope)
    (blocked : Bool) (vis : Finset Coord)
    (hInv : Inv radius (.col j dx sS eS pB nS blocked)) (hdx : ¬dx > 0)
    (hskip : ¬sS.lt (r_slope dx j)) (hbreak : (l_slope dx j).lt eS) :
    cast_run is_opaque ox oy radius octant (.col j dx sS eS pB nS blocked) vis =
      if blocked then vis
      else cast_run is_opaque ox oy radius octant (.row (j + 1) sS eS false nS) vis := by
  obtain ⟨hj, hjr, hsd, hsle, hnd, hnle⟩ := hInv
  unfold cast_run
  obtain ⟨M, hM⟩ : ∃ M, fuelNeed radius (.col j dx sS eS pB nS blocked) = M + 1 :=
    ⟨fuelNeed radius (.col j dx sS eS pB nS blocked) - 1, by
      have := fuelNeed_pos radius (.col j dx sS eS pB nS blocked); omega⟩
  rw [hM]
  conv_lhs => rw [cast_light]
  rw [if_neg hdx]
  dsimp only
  rw [if_neg hskip, if_pos hbreak]
  split
  · rfl
  · exact cast_light_stable_ge is_opaque ox oy radius octant
      (.row (j + 1) sS eS false nS) vis ⟨by omega, hsd, hsle, hnd, hnle⟩
      (fuelNeed radius (.row (j + 1) sS eS false nS)) M (le_refl _)
      (col_fuel_row radius j dx M hjr (by simp only [fuelNeed] at hM ⊢; omega))

theorem cast_run_col_clear ( is_opaque : Int → Int → Bool) (ox oy radius : Int)
    (octant : Nat) (j dx : Int) (sS eS : Slope) (nS : Slope)
    (blocked : Bool) (vis : Finset Coord)
    (hInv : Inv radius (.col j dx sS eS false nS blocked)) (hdx : ¬dx > 0)
    (hskip : ¬sS.lt (r_slope dx j)) (hbreak : ¬(l_slope dx j).lt eS)
    (hop : ¬( is_opaque (ox + (transform_octant dx (-j) octant).1)
        (oy + (transform_octant dx (-j) octant).2) ∧ j < radius)) :
    cast_run is_opaque ox oy radius octant (.col j dx sS eS false nS blocked) vis =
      cast_run is_opaque ox oy radius octant (.col j (dx + 1) sS eS false nS blocked)
        (if dx * dx + j * j ≤ radius * radius then
          insert (ox + (transform_octant dx (-j) octant).1,
            oy + (transform_octant dx (-j) octant).2) vis
        else vis) := by
  obtain ⟨hj, hjr, hsd, hsle, hnd, hnle⟩ := hInv
  unfold cast_run
  obtain ⟨M, hM⟩ : ∃ M, fuelNeed radius (.col j dx sS eS false nS blocked) = M + 1 :=
    ⟨fuelNeed radius (.col j dx sS eS false nS blocked) - 1, by
      have := fuelNeed_pos radius (.col j dx sS eS false nS blocked); omega⟩
  rw [hM]
  conv_lhs => rw [cast_light]
  rw [if_neg hdx]
  dsimp only
  rw [if_neg hskip, if_neg hbreak, if_neg (by simp : ¬(false = true)), if_neg hop]
  exact cast_light_stable_ge is_opaque ox oy radius octant
    (.col j (dx + 1) sS eS false nS blocked) _ ⟨hj, hjr, hsd, hsle, hnd, hnle⟩
    (fuelNeed radius (.col j (dx + 1) sS eS false nS blocked)) M (le_refl _)
    (col_fuel_step radius j dx M hdx (by simp only [fuelNeed] at hM ⊢; omega))

theorem cast_run_col_dive ( is_opaque : Int → Int → Bool) (ox oy radius : Int)
    (octant : Nat) (j dx : Int) (sS eS : Slope) (nS : Slope)
    (blocked : Bool) (vis : Finset Coord)
    (hInv : Inv radius (.col j dx sS eS false nS blocked)) (hdx : ¬dx > 0)
    (hskip : ¬sS.lt (r_slope dx j)) (hbreak : ¬(l_slope dx j).lt eS)
    (hop : is_opaque (ox + (transform_octant dx (-j) octant).1)
        (oy + (transform_octant dx (-j) octant).2) ∧ j < radius) :
    cast_run is_opaque ox oy radius octant (.col j dx sS eS false nS blocked) vis =
      cast_run is_opaque ox oy radius octant
        (.col j (dx + 1) sS eS false (r_slope dx j) true)
        (cast_run is_opaque ox oy radius octant (.start (j + 1) sS (l_slope dx j))
          (if dx * dx + j * j ≤ radius * radius then
            insert (ox + (transform_octant dx (-j) octant).1,
              oy + (transform_octant dx (-j) octant).2) vis
          else vis)) := by
  obtain ⟨hj, hjr, hsd, hsle, hnd, hnle⟩ := hInv
  have hrd : 0 < (r_slope dx j).den := by
    rw [r_slope_eq dx j hj]
    dsimp only
    omega
  have hrle : (r_slope dx j).num * sS.den ≤ sS.num * (r_slope dx j).den := by
    unfold Slope.lt at hskip; omega
  unfold cast_run
  obtain ⟨M, hM⟩ : ∃ M, fuelNeed radius (.col j dx sS eS false nS blocked) = M + 1 :=
    ⟨fuelNeed radius (.col j dx sS eS false nS blocked) - 1, by
      have := fuelNeed_pos radius (.col j dx sS eS false nS blocked); omega⟩
  rw [hM]
  conv_lhs => rw [cast_light]
  rw [if_neg hdx]
  dsimp only
  rw [if_neg hskip, if_neg hbreak, if_neg (by simp : ¬(false = true)), if_pos hop]
  rw [cast_light_stable_ge is_opaque ox oy radius octant
    (.start (j + 1) sS (l_slope dx j)) _ ⟨by omega, hsd, hsle⟩
    (fuelNeed radius (.start (j + 1) sS (l_slope dx j))) M (le_refl _)
    (col_fuel_start radius j dx M hjr (by simp only [fuelNeed] at hM ⊢; omega))]
  exact cast_light_stable_ge is_opaque ox oy radius octant
    (.col j (dx + 1) sS eS false (r_slope dx j) true) _
    ⟨hj, hjr, hsd, hsle, hrd, hrle⟩
    (fuelNeed radius (.col j (dx + 1) sS eS false (r_slope dx j) true)) M
    (le_refl _)
    (col_fuel_step radius j dx M hdx (by simp only [fuelNeed] at hM ⊢; omega))

/-! ## Open-field runs

With `start_slope = 1.0` and `end_slope = 0.0` neither the skip test nor
the break test ever fires on a column in `[-j, 0]`, so on occluder-free
cells the walk inserts exactly the in-radius cells of the row. -/

/-- `compute_fov` is the octant fold of `cast_run` on the entry state. -/
theorem compute_fov_eq_run (origin : Point) (radius : Int)
    ( is_opaque : Int → Int → Bool) :
    compute_fov origin radius is_opaque =
      (List.range 8).foldl
        (fun vis octant =>
          cast_run is_opaque origin.x origin.y radius octant
            (.start 1 slope1 slope0) vis)
        {(origin.x, origin.y)} := by
  unfold compute_fov cast_run
  apply foldl_step_congr
  intro v a
  rw [fovFuel_eq_fuelNeed]

/-- World coordinates of the octant-local cell `(dx, -j)`. -/
def worldPt (ox oy : Int) (octant : Nat) (dx j : Int) : Coord :=
  (ox + (transform_octant dx (-j) octant).1,
   oy + (transform_octant dx (-j) octant).2)

/-- The in-radius cells of row `j` with octant-local columns in
`[lo, hi]`, as world coordinates. -/
def rowSeg (ox oy radius : Int) (octant : Nat) (j lo hi : Int) : Finset Coord :=
  ((Finset.Icc lo hi).filter fun d => d * d + j * j ≤ radius * radius).image
    (fun d => worldPt ox oy octant d j)

/-- All in-radius cells of rows `j ≤ j' < s` with columns in `[-j', 0]`,
as world coordinates. -/
def segsRange (ox oy radius : Int) (octant : Nat) (j s : Int) : Finset Coord :=
  (Finset.Ico j s).biUnion fun j' => rowSeg ox oy radius octant j' (-j') 0

theorem rowSeg_empty (ox oy radius : Int) (octant : Nat) (j lo hi : Int)
    (h : hi < lo) : rowSeg ox oy radius octant j lo hi = ∅ := by
  unfold rowSeg
  rw [Finset.Icc_eq_empty (by omega)]
  rfl

theorem rowSeg_step (ox oy radius : Int) (octant : Nat) (j lo hi : Int)
    (h : lo ≤ hi) :
    rowSeg ox oy radius octant j lo hi =
      (if lo * lo + j * j ≤ radius * radius then {worldPt ox oy octant lo j}
        else ∅) ∪ rowSeg ox oy radius octant j (lo + 1) hi := by
  unfold rowSeg
  ext p
  simp only [Finset.mem_image, Finset.mem_filter, Finset.mem_Icc,
    Finset.mem_union]
  constructor
  · rintro ⟨d, ⟨⟨hd1, hd2⟩, hdist⟩, hp⟩
    rcases eq_or_lt_of_le hd1 with hlo | hlo
    · refine Or.inl ?_
      rw [← hlo] at hdist hp
      rw [if_pos hdist]
      simp [← hp]
    · exact Or.inr ⟨d, ⟨⟨by omega, hd2⟩, hdist⟩, hp⟩
  · rintro (hin | ⟨d, ⟨⟨hd1, hd2⟩, hdist⟩, hp⟩)
    · split at hin
      · rename_i hdist
        simp only [Finset.mem_singleton] at hin
        exact ⟨lo, ⟨⟨le_refl lo, h⟩, hdist⟩, hin.symm⟩
      · exact absurd hin (Finset.not_mem_empty p)
    · exact ⟨d, ⟨⟨by omega, hd2⟩, hdist⟩, hp⟩

theorem segsRange_empty (ox oy radius : Int) (octant : Nat) (j s : Int)
    (h : s ≤ j) : segsRange ox oy radius octant j s = ∅ := by
  unfold segsRange
  rw [Finset.Ico_eq_empty (by omega)]
  rfl

theorem segsRange_step (ox oy radius : Int) (octant : Nat) (j s : Int)
    (h : j < s) :
    segsRange ox oy radius octant j s =
      rowSeg ox oy radius octant j (-j) 0 ∪
        segsRange ox oy radius octant (j + 1) s := by
  unfold segsRange
  ext p
  simp only [Finset.mem_biUnion, Finset.mem_Ico, Finset.mem_union]
  constructor
  · rintro ⟨j', ⟨hj1, hj2⟩, hp⟩
    rcases eq_or_lt_of_le hj1 with hj | hj
    · exact Or.inl (hj ▸ hp)
    · exact Or.inr ⟨j', ⟨by omega, hj2⟩, hp⟩
  · rintro (hp | ⟨j', ⟨hj1, hj2⟩, hp⟩)
    · exact ⟨j, ⟨le_refl j, h⟩, hp⟩
    · exact ⟨j', ⟨by omega, hj2⟩, hp⟩

/-- With `start_slope = 1`, a column in `[-j, 0]` is never skipped. -/
theorem one_not_lt_r_slope (dx j : Int) (hj : 1 ≤ j) (hdx : -j ≤ dx) :
    ¬slope1.lt (r_slope dx j) := by
  rw [r_slope_eq dx j hj]
  unfold Slope.lt slope1
  dsimp only
  omega

/-- With `end_slope = 0`, a column `≤ 0` never triggers the break. -/
theorem l_slope_not_lt_zero (dx j : Int) (hj : 1 ≤ j) (hdx : dx ≤ 0) :
    ¬(l_slope dx j).lt slope0 := by
  rw [l_slope_eq dx j hj]
  unfold Slope.lt slope0
  dsimp only
  omega

/-- With `start_slope = 1` the first column of row `j` is `-j`. -/
theorem col_min_one (j : Int) (hj : 1 ≤ j) : col_min j slope1 = -j := by
  unfold col_min slope1 roundHalfAway
  dsimp only
  rw [if_pos (by omega : (1 : Int) - 2 * j * 1 < 0)]
  rw [show (2 : Int) * 1 - 2 * (1 - 2 * j * 1) = j * (2 * (2 * 1)) from by ring]
  rw [show (j * (2 * (2 * 1))).ediv (2 * (2 * 1)) = j from
    Int.mul_ediv_cancel j (by norm_num)]

/-- Invariant instance for the open-field states. -/
theorem Inv_col_one (radius j dx : Int) (blocked : Bool) (hj : 1 ≤ j)
    (hjr : j ≤ radius) :
    Inv radius (.col j dx slope1 slope0 false slope1 blocked) :=
  ⟨hj, hjr, by decide, by decide, by decide, le_refl _⟩

theorem Inv_row_one (radius j : Int) (hj : 1 ≤ j) :
    Inv radius (.row j slope1 slope0 false slope1) :=
  ⟨hj, by decide, by decide, by decide, le_refl _⟩

/-- Walking a clear row from column `dx` to `0` inserts exactly the
in-radius cells of the row segment and moves on to the next row. -/
theorem run_col_clear_walk ( is_opaque : Int → Int → Bool)
    (ox oy radius : Int) (octant : Nat) (j : Int) (hj : 1 ≤ j)
    (hjr : j ≤ radius) :
    ∀ (c : Nat) (dx : Int) (vis : Finset Coord), dx = 1 - (c : Int) →
      -j ≤ dx →
      (∀ d : Int, dx ≤ d → d ≤ 0 →
        is_opaque (worldPt ox oy octant d j).1 (worldPt ox oy octant d j).2
          = false) →
      cast_run is_opaque ox oy radius octant
        (.col j dx slope1 slope0 false slope1 false) vis =
      cast_run is_opaque ox oy radius octant
        (.row (j + 1) slope1 slope0 false slope1)
        (vis ∪ rowSeg ox oy radius octant j dx 0) := by
  intro c
  induction c with
  | zero =>
    intro dx vis hdx hge hclear
    rw [cast_run_col_exit is_opaque ox oy radius octant _ _ _ _ _ _ _ _
      (Inv_col_one radius j dx false hj hjr) (by omega)]
    rw [if_neg (by decide : ¬(false = true))]
    rw [rowSeg_empty ox oy radius octant j dx 0 (by omega),
      Finset.union_empty]
  | succ c ihc =>
    intro dx vis hdx hge hclear
    have hdx0 : dx ≤ 0 := by omega
    rw [cast_run_col_clear is_opaque ox oy radius octant j dx slope1 slope0
      slope1 false vis (Inv_col_one radius j dx false hj hjr) (by omega)
      (one_not_lt_r_slope dx j hj hge)
      (l_slope_not_lt_zero dx j hj hdx0)
      (by
        rw [show ox + (transform_octant dx (-j) octant).1 =
            (worldPt ox oy octant dx j).1 from rfl,
          show oy + (transform_octant dx (-j) octant).2 =
            (worldPt ox oy octant dx j).2 from rfl,
          hclear dx (le_refl dx) hdx0]
        simp)]
    rw [ihc (dx + 1) _ (by omega) (by omega)
      (fun d hd1 hd2 => hclear d (by omega) hd2)]
    congr 1
    rw [rowSeg_step ox oy radius octant j dx 0 (by omega)]
    split
    · ext p
      simp only [worldPt, Finset.mem_insert, Finset.mem_union,
        Finset.mem_singleton]
      tauto
    · rw [Finset.empty_union]

/-- Walking rows `j, j+1, …, s-1` over occluder-free cells inserts
exactly the in-radius cells of those rows and arrives at row `s`. -/
theorem run_row_clear_walk ( is_opaque : Int → Int → Bool)
    (ox oy radius : Int) (octant : Nat) :
    ∀ (t : Nat) (j s : Int) (vis : Finset Coord), 1 ≤ j → j ≤ s →
      s ≤ radius + 1 → t = (s - j).toNat →
      (∀ (j' d : Int), j ≤ j' → j' < s → -j' ≤ d → d ≤ 0 →
        is_opaque (worldPt ox oy octant d j').1 (worldPt ox oy octant d j').2
          = false) →
      cast_run is_opaque ox oy radius octant
        (.row j slope1 slope0 false slope1) vis =
      cast_run is_opaque ox oy radius octant
        (.row s slope1 slope0 false slope1)
        (vis ∪ segsRange ox oy radius octant j s) := by
  intro t
  induction t with
  | zero =>
    intro j s vis hj hjs hs ht hclear
    have hjseq : j = s := by omega
    rw [hjseq, segsRange_empty ox oy radius octant s s (le_refl s),
      Finset.union_empty]
  | succ t iht =>
    intro j s vis hj hjs hs ht hclear
    have hjlt : j < s := by omega
    have hjr : j ≤ radius := by omega
    rw [cast_run_row is_opaque ox oy radius octant j slope1 slope0 false
      slope1 vis (Inv_row_one radius j hj), if_neg (by omega),
      col_min_one j hj]
    rw [run_col_clear_walk is_opaque ox oy radius octant j hj hjr
      ((j + 1).toNat) (-j) vis (by omega) (le_refl _)
      (fun d hd1 hd2 => hclear j d (le_refl j) hjlt hd1 hd2)]
    rw [iht (j + 1) s _ (by omega) (by omega) hs (by omega)
      (fun j' d hj1 hj2 hd1 hd2 => hclear j' d (by omega) hj2 hd1 hd2)]
    rw [segsRange_step ox oy radius octant j s hjlt, Finset.union_assoc]

/-- A full occluder-free octant run inserts exactly the in-radius cells of
rows `1 … radius` (also correct for `radius ≤ 0`, where it inserts
nothing). -/
theorem run_start_clear ( is_opaque : Int → Int → Bool)
    (ox oy radius : Int) (octant : Nat) (vis : Finset Coord)
    (hclear : ∀ (j' d : Int), 1 ≤ j' → j' ≤ radius → -j' ≤ d → d ≤ 0 →
      is_opaque (worldPt ox oy octant d j').1 (worldPt ox oy octant d j').2
        = false) :
    cast_run is_opaque ox oy radius octant (.start 1 slope1 slope0) vis =
      vis ∪ segsRange ox oy radius octant 1 (radius + 1) := by
  rw [cast_run_start is_opaque ox oy radius octant 1 slope1 slope0 vis
    (Inv_entry radius)]
  rcases Nat.lt_or_ge radius.toNat 1 with hr | hr
  · rw [if_pos (Or.inr (by omega)),
      segsRange_empty ox oy radius octant 1 (radius + 1) (by omega),
      Finset.union_empty]
  · rw [if_neg (by
      rintro (habs | habs)
      · exact absurd habs (by decide)
      · omega)]
    rw [run_row_clear_walk is_opaque ox oy radius octant radius.toNat 1
      (radius + 1) vis (le_refl 1) (by omega) (le_refl _) (by omega)
      (fun j' d hj1 hj2 hd1 hd2 => hclear j' d hj1 (by omega) hd1 hd2)]
    rw [cast_run_row is_opaque ox oy radius octant (radius + 1) slope1 slope0
      false slope1 _ (Inv_row_one radius (radius + 1) (by omega)),
      if_pos (by omega)]

/-! ## The brute-force disk -/

/-- The disk of tiles at squared euclidean distance at most
`radius * radius` from the origin. -/
def diskFS (origin : Point) (radius : Int) : Finset Coord :=
  ((Finset.Icc (origin.x - radius) (origin.x + radius)) ×ˢ
    (Finset.Icc (origin.y - radius) (origin.y + radius))).filter fun p =>
      (p.1 - origin.x) * (p.1 - origin.x) +
        (p.2 - origin.y) * (p.2 - origin.y) ≤ radius * radius

theorem mem_diskFS (origin : Point) (radius : Int) (hR : 0 ≤ radius)
    (p : Coord) :
    p ∈ diskFS origin radius ↔
      (p.1 - origin.x) * (p.1 - origin.x) +
        (p.2 - origin.y) * (p.2 - origin.y) ≤ radius * radius := by
  unfold diskFS
  rw [Finset.mem_filter, Finset.mem_product, Finset.mem_Icc, Finset.mem_Icc]
  constructor
  · exact fun h => h.2
  · intro h
    have h1 : origin.x - radius ≤ p.1 := by
      nlinarith [mul_self_nonneg (p.2 - origin.y)]
    have h2 : p.1 ≤ origin.x + radius := by
      nlinarith [mul_self_nonneg (p.2 - origin.y)]
    have h3 : origin.y - radius ≤ p.2 := by
      nlinarith [mul_self_nonneg (p.1 - origin.x)]
    have h4 : p.2 ≤ origin.y + radius := by
      nlinarith [mul_self_nonneg (p.1 - origin.x)]
    exact ⟨⟨⟨h1, h2⟩, ⟨h3, h4⟩⟩, h⟩

/-- The eight octant transforms preserve the squared norm. -/
theorem transform_octant_norm (d j : Int) (o : Nat) :
    (transform_octant d (-j) o).1 * (transform_octant d (-j) o).1 +
      (transform_octant d (-j) o).2 * (transform_octant d (-j) o).2 =
      d * d + j * j := by
  rcases o with _ | _ | _ | _ | _ | _ | _ | o <;>
    simp only [transform_octant] <;> ring

/-- Membership in a segment range, unfolded. -/
theorem mem_segsRange (ox oy radius : Int) (octant : Nat) (j s : Int)
    (p : Coord) :
    p ∈ segsRange ox oy radius octant j s ↔
      ∃ j' d : Int, j ≤ j' ∧ j' < s ∧ -j' ≤ d ∧ d ≤ 0 ∧
        d * d + j' * j' ≤ radius * radius ∧
        p = worldPt ox oy octant d j' := by
  unfold segsRange rowSeg
  simp only [Finset.mem_biUnion, Finset.mem_Ico, Finset.mem_image,
    Finset.mem_filter, Finset.mem_Icc]
  constructor
  · rintro ⟨j', ⟨hj1, hj2⟩, d, ⟨⟨hd1, hd2⟩, hdist⟩, hp⟩
    exact ⟨j', d, hj1, hj2, hd1, hd2, hdist, hp.symm⟩
  · rintro ⟨j', d, hj1, hj2, hd1, hd2, hdist, hp⟩
    exact ⟨j', ⟨hj1, hj2⟩, d, ⟨⟨hd1, hd2⟩, hdist⟩, hp.symm⟩

/-- Cells inserted by an octant run lie inside the disk. -/
theorem segsRange_subset_disk (ox oy radius : Int) (octant : Nat) (p : Coord)
    (hp : p ∈ segsRange ox oy radius octant 1 (radius + 1)) :
    (p.1 - ox) * (p.1 - ox) + (p.2 - oy) * (p.2 - oy) ≤ radius * radius := by
  rw [mem_segsRange] at hp
  obtain ⟨j', d, hj1, hj2, hd1, hd2, hdist, hp⟩ := hp
  have hnorm := transform_octant_norm d j' octant
  rw [hp]
  unfold worldPt
  dsimp only
  calc (ox + (transform_octant d (-j') octant).1 - ox) *
        (ox + (transform_octant d (-j') octant).1 - ox) +
        (oy + (transform_octant d (-j') octant).2 - oy) *
        (oy + (transform_octant d (-j') octant).2 - oy)
      = (transform_octant d (-j') octant).1 *
          (transform_octant d (-j') octant).1 +
        (transform_octant d (-j') octant).2 *
          (transform_octant d (-j') octant).2 := by ring
    _ = d * d + j' * j' := hnorm
    _ ≤ radius * radius := hdist

/-- Every non-origin tile of the disk is produced by one of the eight
octant runs. -/
theorem disk_cover (ox oy radius : Int) (hR : 0 ≤ radius) (x y : Int)
    (hdist : (x - ox) * (x - ox) + (y - oy) * (y - oy) ≤ radius * radius)
    (hne : ¬(x = ox ∧ y = oy)) :
    ∃ o : Nat, o < 8 ∧ (x, y) ∈ segsRange ox oy radius o 1 (radius + 1) := by
  set a := x - ox with ha
  set b := y - oy with hb
  have hab : ¬(a = 0 ∧ b = 0) := by
    rintro ⟨h1, h2⟩
    exact hne ⟨by omega, by omega⟩
  rcases le_total 0 a with hA | hA <;> rcases le_total 0 b with hB | hB
  · -- a ≥ 0, b ≥ 0
    rcases le_total a b with hM | hM
    · -- j = b, octant 4 : worldPt = (ox - d, oy + j), d = -a
      refine ⟨4, by omega, ?_⟩
      rw [mem_segsRange]
      refine ⟨b, -a, by omega, ?_, by omega, by omega, by nlinarith, ?_⟩
      · have : b ≤ radius := by nlinarith
        omega
      · unfold worldPt transform_octant
        simp only [Prod.mk.injEq]
        constructor <;> omega
    · -- j = a, octant 5 : worldPt = (ox + j, oy - d), d = -b
      refine ⟨5, by omega, ?_⟩
      rw [mem_segsRange]
      refine ⟨a, -b, by omega, ?_, by omega, by omega, by nlinarith, ?_⟩
      · have : a ≤ radius := by nlinarith
        omega
      · unfold worldPt transform_octant
        simp only [Prod.mk.injEq]
        constructor <;> omega
  · -- a ≥ 0, b ≤ 0
    rcases le_total a (-b) with hM | hM
    · -- j = -b, octant 7 : worldPt = (ox - d, oy - j), d = -a
      refine ⟨7, by omega, ?_⟩
      rw [mem_segsRange]
      refine ⟨-b, -a, by omega, ?_, by omega, by omega, by nlinarith, ?_⟩
      · have : -b ≤ radius := by nlinarith
        omega
      · unfold worldPt transform_octant
        simp only [Prod.mk.injEq]
        constructor <;> omega
    · -- j = a, octant 6 : worldPt = (ox + j, oy + d), d = b
      refine ⟨6, by omega, ?_⟩
      rw [mem_segsRange]
      refine ⟨a, b, by omega, ?_, by omega, by omega, by nlinarith, ?_⟩
      · have : a ≤ radius := by nlinarith
        omega
      · unfold worldPt transform_octant
        simp only [Prod.mk.injEq]
        constructor <;> omega
  · -- a ≤ 0, b ≥ 0
    rcases le_total (-a) b with hM | hM
    · -- j = b, octant 3 : worldPt = (ox + d, oy + j), d = a
      refine ⟨3, by omega, ?_⟩
      rw [mem_segsRange]
      refine ⟨b, a, by omega, ?_, by omega, by omega, by nlinarith, ?_⟩
      · have : b ≤ radius := by nlinarith
        omega
      · unfold worldPt transform_octant
        simp only [Prod.mk.injEq]
        constructor <;> omega
    · -- j = -a, octant 2 : worldPt = (ox - j, oy - d), d = -b
      refine ⟨2, by omega, ?_⟩
      rw [mem_segsRange]
      refine ⟨-a, -b, by omega, ?_, by omega, by omega, by nlinarith, ?_⟩
      · have : -a ≤ radius := by nlinarith
        omega
      · unfold worldPt transform_octant
        simp only [Prod.mk.injEq]
        constructor <;> omega
  · -- a ≤ 0, b ≤ 0
    rcases le_total (-a) (-b) with hM | hM
    · -- j = -b, octant 0 : worldPt = (ox + d, oy - j), d = a
      refine ⟨0, by omega, ?_⟩
      rw [mem_segsRange]
      refine ⟨-b, a, by omega, ?_, by omega, by omega, by nlinarith, ?_⟩
      · have : -b ≤ radius := by nlinarith
        omega
      · unfold worldPt transform_octant
        simp only [Prod.mk.injEq]
        constructor <;> omega
    · -- j = -a, octant 1 : worldPt = (ox - j, oy + d), d = b
      refine ⟨1, by omega, ?_⟩
      rw [mem_segsRange]
      refine ⟨-a, b, by omega, ?_, by omega, by omega, by nlinarith, ?_⟩
      · have : -a ≤ radius := by nlinarith
        omega
      · unfold worldPt transform_octant
        simp only [Prod.mk.injEq]
        constructor <;> omega

/-! ## Claim C1: with no occluders the visible set is exactly the disk -/

/-- C1: for every origin and every radius `R ≥ 0`, `compute_fov` with an
everywhere-false opacity predicate returns exactly the disk of tiles at
squared distance at most `R²` from the origin — exact set equality. -/
theorem compute_fov_no_occluders_disk (origin : Point) (radius : Int)
    (hR : 0 ≤ radius) :
    compute_fov origin radius (fun _ _ => false) = diskFS origin radius := by
  rw [compute_fov_eq_run]
  rw [show (8 : Nat) = 7 + 1 from rfl, List.range_succ, List.foldl_append]
  rw [show (7 : Nat) = 6 + 1 from rfl, List.range_succ, List.foldl_append]
  rw [show (6 : Nat) = 5 + 1 from rfl, List.range_succ, List.foldl_append]
  rw [show (5 : Nat) = 4 + 1 from rfl, List.range_succ, List.foldl_append]
  rw [show (4 : Nat) = 3 + 1 from rfl, List.range_succ, List.foldl_append]
  rw [show (3 : Nat) = 2 + 1 from rfl, List.range_succ, List.foldl_append]
  rw [show (2 : Nat) = 1 + 1 from rfl, List.range_succ, List.foldl_append]
  rw [show (1 : Nat) = 0 + 1 from rfl, List.range_succ, List.foldl_append]
  simp only [List.range_zero, List.foldl_nil, List.foldl_cons]
  rw [run_start_clear (fun _ _ => false) origin.x origin.y radius 7 _
    (fun _ _ _ _ _ _ => rfl)]
  rw [run_start_clear (fun _ _ => false) origin.x origin.y radius 6 _
    (fun _ _ _ _ _ _ => rfl)]
  rw [run_start_clear (fun _ _ => false) origin.x origin.y radius 5 _
    (fun _ _ _ _ _ _ => rfl)]
  rw [run_start_clear (fun _ _ => false) origin.x origin.y radius 4 _
    (fun _ _ _ _ _ _ => rfl)]
  rw [run_start_clear (fun _ _ => false) origin.x origin.y radius 3 _
    (fun _ _ _ _ _ _ => rfl)]
  rw [run_start_clear (fun _ _ => false) origin.x origin.y radius 2 _
    (fun _ _ _ _ _ _ => rfl)]
  rw [run_start_clear (fun _ _ => false) origin.x origin.y radius 1 _
    (fun _ _ _ _ _ _ => rfl)]
  rw [run_start_clear (fun _ _ => false) origin.x origin.y radius 0 _
    (fun _ _ _ _ _ _ => rfl)]
  ext p
  rw [mem_diskFS origin radius hR p]
  simp only [Finset.mem_union, Finset.mem_singleton]
  constructor
  · rintro ((((((((hp | hp) | hp) | hp) | hp) | hp) | hp) | hp) | hp)
    · rw [hp]
      dsimp only
      nlinarith [mul_self_nonneg radius]
    · exact segsRange_subset_disk origin.x origin.y radius 0 p hp
    · exact segsRange_subset_disk origin.x origin.y radius 1 p hp
    · exact segsRange_subset_disk origin.x origin.y radius 2 p hp
    · exact segsRange_subset_disk origin.x origin.y radius 3 p hp
    · exact segsRange_subset_disk origin.x origin.y radius 4 p hp
    · exact segsRange_subset_disk origin.x origin.y radius 5 p hp
    · exact segsRange_subset_disk origin.x origin.y radius 6 p hp
    · exact segsRange_subset_disk origin.x origin.y radius 7 p hp
  · intro hdist
    by_cases hp : p = (origin.x, origin.y)
    · exact Or.inl <| Or.inl <| Or.inl <| Or.inl <| Or.inl <| Or.inl <|
        Or.inl <| Or.inl hp
    · obtain ⟨o, ho, hmem⟩ := disk_cover origin.x origin.y radius hR p.1 p.2
        hdist
        (by
          rintro ⟨h1, h2⟩
          exact hp (Prod.ext h1 h2))
      have hmem2 : p ∈ segsRange origin.x origin.y radius o 1 (radius + 1) := by
        rwa [Prod.mk.eta] at hmem
      interval_cases o <;> simp only [hmem2, or_true, true_or]

/-- Witness for C1 at origin `(0, 0)` and radius `2`. -/
theorem compute_fov_no_occluders_disk_witness :
    ((0 : Int) ≤ 2) ∧
    compute_fov ⟨0, 0⟩ 2 (fun _ _ => false) = diskFS ⟨0, 0⟩ 2 :=
  ⟨by decide, compute_fov_no_occluders_disk ⟨0, 0⟩ 2 (by decide)⟩

/-! ## Shape of inserted cells

Every cell inserted by a run is an octant-local cell `(dx, -j)` with
`j ≥ 1` and `dx ≤ 0` whose left slope passed the break test, so it is at
least the end slope; and end slopes in the recursion tree only grow.
This is what makes an occluder block everything at strictly smaller left
slope behind it. -/

/-- Cross-multiplied `≤` on positive-denominator slopes is transitive. -/
theorem slope_le_trans (a b c : Slope) (ha : 0 < a.den) (hb : 0 < b.den)
    (hc : 0 < c.den) (hab : a.num * b.den ≤ b.num * a.den)
    (hbc : b.num * c.den ≤ c.num * b.den) :
    a.num * c.den ≤ c.num * a.den := by
  have h1 : a.num * b.den * c.den ≤ b.num * a.den * c.den :=
    mul_le_mul_of_nonneg_right hab (by omega)
  have h2 : b.num * c.den * a.den ≤ c.num * b.den * a.den :=
    mul_le_mul_of_nonneg_right hbc (by omega)
  have h3 : a.num * c.den * b.den ≤ c.num * a.den * b.den := by nlinarith
  exact le_of_mul_le_mul_right h3 hb

/-- States whose end slope is at least `e` (rows start at 1); preserved
by every transition because nested recursions only narrow the wedge from
below. -/
def InvE (e : Slope) : Phase → Prop
  | .start row _ eS => 1 ≤ row ∧ 0 < eS.den ∧ e.num * eS.den ≤ eS.num * e.den
  | .row j _ eS _ _ => 1 ≤ j ∧ 0 < eS.den ∧ e.num * eS.den ≤ eS.num * e.den
  | .col j _ _ eS _ _ _ => 1 ≤ j ∧ 0 < eS.den ∧ e.num * eS.den ≤ eS.num * e.den

/-- Any cell a run adds to the visible set is a world cell
`worldPt dx j` with `j ≥ 1`, `dx ≤ 0`, whose left slope is at least `e`
whenever every end slope in the initial state is at least `e`. -/
theorem cast_light_insert_shape ( is_opaque : Int → Int → Bool)
    (ox oy radius : Int) (octant : Nat) (e : Slope) (hed : 0 < e.den) :
    ∀ (n : Nat) (ph : Phase) (vis : Finset Coord) (p : Coord),
      p ∈ cast_light is_opaque ox oy radius octant n ph vis → InvE e ph →
        p ∈ vis ∨
        ∃ j dx : Int, 1 ≤ j ∧ dx ≤ 0 ∧ p = worldPt ox oy octant dx j ∧
          e.num * (l_slope dx j).den ≤ (l_slope dx j).num * e.den := by
  intro n
  induction n with
  | zero =>
    intro ph vis p hp _
    exact Or.inl hp
  | succ n ihn =>
    intro ph vis p hp hInvE
    cases ph with
    | start row sS eS =>
      obtain ⟨hrow, hEd, hEle⟩ := hInvE
      rw [cast_light] at hp
      split at hp
      · exact Or.inl hp
      · exact ihn _ _ p hp ⟨hrow, hEd, hEle⟩
    | row j sS eS pB nS =>
      obtain ⟨hj, hEd, hEle⟩ := hInvE
      rw [cast_light] at hp
      split at hp
      · exact Or.inl hp
      · exact ihn _ _ p hp ⟨hj, hEd, hEle⟩
    | col j dx sS eS pB nS blocked =>
      obtain ⟨hj, hEd, hEle⟩ := hInvE
      rw [cast_light] at hp
      split at hp
      · -- dx > 0
        split at hp
        · exact Or.inl hp
        · exact ihn _ _ p hp ⟨by omega, hEd, hEle⟩
      · rename_i hdx
        dsimp only at hp
        split at hp
        · -- skip
          exact ihn _ _ p hp ⟨hj, hEd, hEle⟩
        · rename_i hskip
          split at hp
          · -- break
            split at hp
            · exact Or.inl hp
            · exact ihn _ _ p hp ⟨by omega, hEd, hEle⟩
          · rename_i hbreak
            -- the cell (dx, j) was not cut: end slope ≤ its left slope
            have hld : 0 < (l_slope dx j).den := by
              rw [l_slope_eq dx j hj]
              dsimp only
              omega
            have hlge : e.num * (l_slope dx j).den ≤
                (l_slope dx j).num * e.den := by
              unfold Slope.lt at hbreak
              exact slope_le_trans e eS (l_slope dx j) hed hEd hld hEle
                (by omega)
            have hvis1 : ∀ q,
                q ∈ (if dx * dx + j * j ≤ radius * radius then
                  insert (ox + (transform_octant dx (-j) octant).1,
                    oy + (transform_octant dx (-j) octant).2) vis
                else vis) →
                q ∈ vis ∨
                ∃ j' dx' : Int, 1 ≤ j' ∧ dx' ≤ 0 ∧
                  q = worldPt ox oy octant dx' j' ∧
                  e.num * (l_slope dx' j').den ≤ (l_slope dx' j').num * e.den := by
              intro q hq
              split at hq
              · rcases Finset.mem_insert.mp hq with hq | hq
                · exact Or.inr ⟨j, dx, hj, by omega, hq, hlge⟩
                · exact Or.inl hq
              · exact Or.inl hq
            split at hp
            · -- prev_blocked
              split at hp
              · rcases ihn _ _ p hp ⟨hj, hEd, hEle⟩ with hp2 | hp2
                · exact hvis1 p hp2
                · exact Or.inr hp2
              · rcases ihn _ _ p hp ⟨hj, hEd, hEle⟩ with hp2 | hp2
                · exact hvis1 p hp2
                · exact Or.inr hp2
            · split at hp
              · -- dive: first the continuation run, then the nested run
                have hInvDive : InvE e (.start (j + 1) sS (l_slope dx j)) :=
                  ⟨by omega, hld, hlge⟩
                rcases ihn _ _ p hp ⟨hj, hEd, hEle⟩ with hp2 | hp2
                · rcases ihn _ _ p hp2 hInvDive with hp3 | hp3
                  · exact hvis1 p hp3
                  · exact Or.inr hp3
                · exact Or.inr hp2
              · rcases ihn _ _ p hp ⟨hj, hEd, hEle⟩ with hp2 | hp2
                · exact hvis1 p hp2
                · exact Or.inr hp2

theorem mem_rowSeg (ox oy radius : Int) (octant : Nat) (j lo hi : Int)
    (p : Coord) :
    p ∈ rowSeg ox oy radius octant j lo hi ↔
      ∃ d : Int, lo ≤ d ∧ d ≤ hi ∧ d * d + j * j ≤ radius * radius ∧
        p = worldPt ox oy octant d j := by
  unfold rowSeg
  simp only [Finset.mem_image, Finset.mem_filter, Finset.mem_Icc]
  constructor
  · rintro ⟨d, ⟨⟨hd1, hd2⟩, hdist⟩, hp⟩
    exact ⟨d, hd1, hd2, hdist, hp.symm⟩
  · rintro ⟨d, hd1, hd2, hdist, hp⟩
    exact ⟨d, ⟨⟨hd1, hd2⟩, hdist⟩, hp.symm⟩

/-- Walking a clear stretch of a row from `dx` up to (but not including)
`stop ≤ 0` inserts exactly the in-radius cells with columns in
`[dx, stop-1]`. -/
theorem run_col_walk_to ( is_opaque : Int → Int → Bool)
    (ox oy radius : Int) (octant : Nat) (j : Int) (hj : 1 ≤ j)
    (hjr : j ≤ radius) :
    ∀ (c : Nat) (dx stop : Int) (vis : Finset Coord), dx = stop - (c : Int) →
      -j ≤ dx → stop ≤ 0 →
      (∀ d : Int, dx ≤ d → d < stop →
        is_opaque (worldPt ox oy octant d j).1 (worldPt ox oy octant d j).2
          = false) →
      cast_run is_opaque ox oy radius octant
        (.col j dx slope1 slope0 false slope1 false) vis =
      cast_run is_opaque ox oy radius octant
        (.col j stop slope1 slope0 false slope1 false)
        (vis ∪ rowSeg ox oy radius octant j dx (stop - 1)) := by
  intro c
  induction c with
  | zero =>
    intro dx stop vis hdx hge hstop hclear
    rw [show dx = stop from by omega,
      rowSeg_empty ox oy radius octant j stop (stop - 1) (by omega),
      Finset.union_empty]
  | succ c ihc =>
    intro dx stop vis hdx hge hstop hclear
    have hdx0 : dx ≤ 0 := by omega
    rw [cast_run_col_clear is_opaque ox oy radius octant j dx slope1 slope0
      slope1 false vis (Inv_col_one radius j dx false hj hjr) (by omega)
      (one_not_lt_r_slope dx j hj hge)
      (l_slope_not_lt_zero dx j hj hdx0)
      (by
        rw [show ox + (transform_octant dx (-j) octant).1 =
            (worldPt ox oy octant dx j).1 from rfl,
          show oy + (transform_octant dx (-j) octant).2 =
            (worldPt ox oy octant dx j).2 from rfl,
          hclear dx (le_refl dx) (by omega)]
        simp)]
    rw [ihc (dx + 1) stop _ (by omega) (by omega) hstop
      (fun d hd1 hd2 => hclear d (by omega) hd2)]
    congr 1
    rw [rowSeg_step ox oy radius octant j dx (stop - 1) (by omega)]
    split
    · ext q
      simp only [worldPt, Finset.mem_insert, Finset.mem_union,
        Finset.mem_singleton]
      tauto
    · rw [Finset.empty_union]

theorem worldPt_oct0 (ox oy dx j : Int) :
    worldPt ox oy 0 dx j = (ox + dx, oy + -j) := rfl

theorem worldPt_oct1 (ox oy dx j : Int) :
    worldPt ox oy 1 dx j = (ox + -j, oy + dx) := rfl

theorem worldPt_oct2 (ox oy dx j : Int) :
    worldPt ox oy 2 dx j = (ox + -j, oy + -dx) := rfl

theorem worldPt_oct3 (ox oy dx j : Int) :
    worldPt ox oy 3 dx j = (ox + dx, oy + -(-j)) := rfl

theorem worldPt_oct4 (ox oy dx j : Int) :
    worldPt ox oy 4 dx j = (ox + -dx, oy + -(-j)) := rfl

theorem worldPt_oct5 (ox oy dx j : Int) :
    worldPt ox oy 5 dx j = (ox + -(-j), oy + -dx) := rfl

theorem worldPt_oct6 (ox oy dx j : Int) :
    worldPt ox oy 6 dx j = (ox + -(-j), oy + dx) := rfl

theorem worldPt_oct7 (ox oy dx j : Int) :
    worldPt ox oy 7 dx j = (ox + -dx, oy + -j) := rfl

/-- For octants other than 5 and 6, no inserted cell lies on the positive
`x`-axis of the origin. -/
theorem worldPt_ne_axis (ox oy k dx' j' : Int) (hk : 1 ≤ k) (hj : 1 ≤ j')
    (o : Nat) (ho : o = 0 ∨ o = 1 ∨ o = 2 ∨ o = 3 ∨ o = 4 ∨ o = 7) :
    worldPt ox oy o dx' j' ≠ (ox + k, oy) := by
  intro h
  rcases ho with rfl | rfl | rfl | rfl | rfl | rfl
  · rw [worldPt_oct0, Prod.mk.injEq] at h; omega
  · rw [worldPt_oct1, Prod.mk.injEq] at h; omega
  · rw [worldPt_oct2, Prod.mk.injEq] at h; omega
  · rw [worldPt_oct3, Prod.mk.injEq] at h; omega
  · rw [worldPt_oct4, Prod.mk.injEq] at h; omega
  · rw [worldPt_oct7, Prod.mk.injEq] at h; omega

/-- Exact shape of an octant run whose only opaque cell is the
octant-local cell `(0, -d)` with `1 ≤ d ≤ radius`: the rows before `d`
and the columns of row `d` before the wall are inserted as in the open
field, the wall itself is inserted, and then either the run ends (row
`radius`) or it continues only through the narrowed recursion whose end
slope is the wall's left slope. -/
theorem run_wall_octant ( is_opaque : Int → Int → Bool) (ox oy radius : Int)
    (octant : Nat) (d : Int) (h1 : 1 ≤ d) (hdR : d ≤ radius)
    (HW : ∀ j' dx' : Int, 1 ≤ j' → -j' ≤ dx' → dx' ≤ 0 →
      ( is_opaque (worldPt ox oy octant dx' j').1
          (worldPt ox oy octant dx' j').2 = true ↔ (j' = d ∧ dx' = 0)))
    (vis : Finset Coord) :
    (cast_run is_opaque ox oy radius octant (.start 1 slope1 slope0) vis =
        cast_run is_opaque ox oy radius octant
          (.start (d + 1) slope1 (l_slope 0 d))
          (insert (worldPt ox oy octant 0 d)
            (vis ∪ segsRange ox oy radius octant 1 d ∪
              rowSeg ox oy radius octant d (-d) (0 - 1))) ∧ d < radius) ∨
    (cast_run is_opaque ox oy radius octant (.start 1 slope1 slope0) vis =
        insert (worldPt ox oy octant 0 d)
          (vis ∪ segsRange ox oy radius octant 1 d ∪
            rowSeg ox oy radius octant d (-d) (0 - 1)) ∧ d = radius) := by
  have hclear_rows : ∀ j' d' : Int, 1 ≤ j' → j' < d → -j' ≤ d' → d' ≤ 0 →
      is_opaque (worldPt ox oy octant d' j').1 (worldPt ox oy octant d' j').2
        = false := by
    intro j' d' hj1 hj2 hd1 hd2
    rcases hb : is_opaque (worldPt ox oy octant d' j').1
        (worldPt ox oy octant d' j').2 with _ | _
    · rfl
    · exact absurd ((HW j' d' (by omega) hd1 hd2).mp hb) (by omega)
  have hclear_cols : ∀ d' : Int, -d ≤ d' → d' < 0 →
      is_opaque (worldPt ox oy octant d' d).1 (worldPt ox oy octant d' d).2
        = false := by
    intro d' hd1 hd2
    rcases hb : is_opaque (worldPt ox oy octant d' d).1
        (worldPt ox oy octant d' d).2 with _ | _
    · rfl
    · exact absurd ((HW d d' h1 hd1 (by omega)).mp hb).2 (by omega)
  have hpre : cast_run is_opaque ox oy radius octant
      (.start 1 slope1 slope0) vis =
      cast_run is_opaque ox oy radius octant
        (.col d 0 slope1 slope0 false slope1 false)
        (vis ∪ segsRange ox oy radius octant 1 d ∪
          rowSeg ox oy radius octant d (-d) (0 - 1)) := by
    rw [cast_run_start is_opaque ox oy radius octant 1 slope1 slope0 vis
      (Inv_entry radius),
      if_neg (by
        rintro (habs | habs)
        · exact absurd habs (by decide)
        · omega)]
    rw [run_row_clear_walk is_opaque ox oy radius octant (d - 1).toNat 1 d vis
      (le_refl 1) (by omega) (by omega) (by omega)
      (fun j' d' hj1 hj2 hd1 hd2 => hclear_rows j' d' hj1 hj2 hd1 hd2)]
    rw [cast_run_row is_opaque ox oy radius octant d slope1 slope0 false
      slope1 _ (Inv_row_one radius d h1), if_neg (by omega),
      col_min_one d h1]
    rw [run_col_walk_to is_opaque ox oy radius octant d h1 hdR d.toNat
      (-d) 0 _ (by omega) (by omega) (by omega)
      (fun d' hd1 hd2 => hclear_cols d' hd1 hd2)]
  have hwx : ox + (transform_octant 0 (-d) octant).1 =
      (worldPt ox oy octant 0 d).1 := rfl
  have hwy : oy + (transform_octant 0 (-d) octant).2 =
      (worldPt ox oy octant 0 d).2 := rfl
  have hdist : (0 : Int) * 0 + d * d ≤ radius * radius := by
    nlinarith [mul_le_mul hdR hdR (by omega : (0 : Int) ≤ d) (by omega)]
  have hrd : 0 < (r_slope 0 d).den := by
    rw [r_slope_eq 0 d h1]
    dsimp only
    omega
  have hrle : (r_slope 0 d).num * slope1.den ≤ slope1.num * (r_slope 0 d).den := by
    rw [r_slope_eq 0 d h1]
    unfold slope1
    dsimp only
    omega
  rcases lt_or_eq_of_le hdR with hlt | heq
  · refine Or.inl ⟨?_, hlt⟩
    rw [hpre]
    rw [cast_run_col_dive is_opaque ox oy radius octant d 0 slope1 slope0
      slope1 false _ (Inv_col_one radius d 0 false h1 hdR) (by omega)
      (one_not_lt_r_slope 0 d h1 (by omega))
      (l_slope_not_lt_zero 0 d h1 (le_refl 0))
      ⟨(HW d 0 h1 (by omega) (le_refl 0)).mpr ⟨rfl, rfl⟩, hlt⟩]
    rw [if_pos hdist]
    rw [cast_run_col_exit is_opaque ox oy radius octant d (0 + 1) slope1
      slope0 false (r_slope 0 d) true _
      ⟨h1, hdR, by decide, by decide, hrd, hrle⟩ (by omega)]
    rw [if_pos rfl]
    rfl
  · refine Or.inr ⟨?_, heq⟩
    rw [hpre]
    rw [cast_run_col_clear is_opaque ox oy radius octant d 0 slope1 slope0
      slope1 false _ (Inv_col_one radius d 0 false h1 hdR) (by omega)
      (one_not_lt_r_slope 0 d h1 (by omega))
      (l_slope_not_lt_zero 0 d h1 (le_refl 0))
      (by
        rintro ⟨-, habs⟩
        omega)]
    rw [if_pos hdist]
    rw [cast_run_col_exit is_opaque ox oy radius octant d (0 + 1) slope1
      slope0 false slope1 false _
      ⟨h1, hdR, by decide, by decide, by decide, le_refl _⟩ (by omega)]
    rw [if_neg (by decide : ¬(false = true))]
    rw [cast_run_row is_opaque ox oy radius octant (d + 1) slope1 slope0
      false slope1 _ (Inv_row_one radius (d + 1) (by omega)),
      if_pos (by omega)]
    rfl

/-- The wall cell itself is inserted by its octant's run. -/
theorem run_wall_octant_mem ( is_opaque : Int → Int → Bool) (ox oy radius : Int)
    (octant : Nat) (d : Int) (h1 : 1 ≤ d) (hdR : d ≤ radius)
    (HW : ∀ j' dx' : Int, 1 ≤ j' → -j' ≤ dx' → dx' ≤ 0 →
      ( is_opaque (worldPt ox oy octant dx' j').1
          (worldPt ox oy octant dx' j').2 = true ↔ (j' = d ∧ dx' = 0)))
    (vis : Finset Coord) :
    worldPt ox oy octant 0 d ∈
      cast_run is_opaque ox oy radius octant (.start 1 slope1 slope0) vis := by
  rcases run_wall_octant is_opaque ox oy radius octant d h1 hdR HW vis with
    ⟨heq, -⟩ | ⟨heq, -⟩
  · rw [heq]
    exact cast_light_subset is_opaque ox oy radius octant _ _ _
      (Finset.mem_insert_self _ _)
  · rw [heq]
    exact Finset.mem_insert_self _ _

/-- No axis cell strictly behind the wall is inserted by the wall's
octant run: all cells before the wall have row at most `d`, and all cells
of the narrowed recursion have left slope at least the wall's left slope,
which the axis cells `(0, -k)` with `k > d` fail. -/
theorem run_wall_octant_not_mem ( is_opaque : Int → Int → Bool)
    (ox oy radius : Int) (octant : Nat) (d k : Int) (p0 : Coord)
    (h1 : 1 ≤ d) (hdR : d ≤ radius) (hk : d < k)
    (HW : ∀ j' dx' : Int, 1 ≤ j' → -j' ≤ dx' → dx' ≤ 0 →
      ( is_opaque (worldPt ox oy octant dx' j').1
          (worldPt ox oy octant dx' j').2 = true ↔ (j' = d ∧ dx' = 0)))
    (HP : ∀ j' dx' : Int, worldPt ox oy octant dx' j' = p0 ↔
      (j' = k ∧ dx' = 0))
    (vis : Finset Coord) (hvis : p0 ∉ vis) :
    p0 ∉ cast_run is_opaque ox oy radius octant (.start 1 slope1 slope0) vis := by
  have hp0W : p0 ∉ insert (worldPt ox oy octant 0 d)
      (vis ∪ segsRange ox oy radius octant 1 d ∪
        rowSeg ox oy radius octant d (-d) (0 - 1)) := by
    intro hmem
    rcases Finset.mem_insert.mp hmem with h | h
    · have h2 := (HP d 0).mp h.symm
      omega
    · rcases Finset.mem_union.mp h with h | h
      · rcases Finset.mem_union.mp h with h | h
        · exact hvis h
        · rw [mem_segsRange] at h
          obtain ⟨j', d', hj1, hj2, hd1, hd2, hdist, hp⟩ := h
          have h2 := (HP j' d').mp hp.symm
          omega
      · rw [mem_rowSeg] at h
        obtain ⟨d', hd1, hd2, hdist, hp⟩ := h
        have h2 := (HP d d').mp hp.symm
        omega
  rcases run_wall_octant is_opaque ox oy radius octant d h1 hdR HW vis with
    ⟨heq, hlt⟩ | ⟨heq, -⟩
  · rw [heq]
    intro hmem
    have hshape := cast_light_insert_shape is_opaque ox oy radius octant
      (l_slope 0 d)
      (by rw [l_slope_eq 0 d h1]; dsimp only; omega)
      (fuelNeed radius (.start (d + 1) slope1 (l_slope 0 d)))
      (.start (d + 1) slope1 (l_slope 0 d)) _ p0 hmem
      ⟨by omega, by rw [l_slope_eq 0 d h1]; dsimp only; omega, le_refl _⟩
    rcases hshape with h | ⟨j', dx', hj1, hdx1, hp, hle⟩
    · exact hp0W h
    · obtain ⟨rfl, rfl⟩ := (HP j' dx').mp hp.symm
      rw [l_slope_eq 0 d h1, l_slope_eq 0 j' (by omega)] at hle
      dsimp only at hle
      omega
  · rw [heq]
    exact hp0W

/-- Full eight-octant analysis of a single wall on the positive `x`-axis:
the wall is visible and no axis tile strictly behind it is. -/
theorem axis_wall_run ( is_opaque : Int → Int → Bool) (ox oy radius d k : Int)
    (h1 : 1 ≤ d) (hdR : d ≤ radius) (hk : d < k)
    (HWall : ∀ x y : Int, is_opaque x y = true ↔ (x = ox + d ∧ y = oy)) :
    ((ox + d, oy) ∈ (List.range 8).foldl
      (fun vis octant =>
        cast_run is_opaque ox oy radius octant (.start 1 slope1 slope0) vis)
      {(ox, oy)}) ∧
    ((ox + k, oy) ∉ (List.range 8).foldl
      (fun vis octant =>
        cast_run is_opaque ox oy radius octant (.start 1 slope1 slope0) vis)
      {(ox, oy)}) := by
  have HW5 : ∀ j' dx' : Int, 1 ≤ j' → -j' ≤ dx' → dx' ≤ 0 →
      ( is_opaque (worldPt ox oy 5 dx' j').1 (worldPt ox oy 5 dx' j').2 = true ↔
        (j' = d ∧ dx' = 0)) := by
    intro j' dx' hj1 hd1 hd2
    rw [worldPt_oct5]
    dsimp only
    rw [HWall]
    constructor <;> intro h <;> exact ⟨by omega, by omega⟩
  have HW6 : ∀ j' dx' : Int, 1 ≤ j' → -j' ≤ dx' → dx' ≤ 0 →
      ( is_opaque (worldPt ox oy 6 dx' j').1 (worldPt ox oy 6 dx' j').2 = true ↔
        (j' = d ∧ dx' = 0)) := by
    intro j' dx' hj1 hd1 hd2
    rw [worldPt_oct6]
    dsimp only
    rw [HWall]
    constructor <;> intro h <;> exact ⟨by omega, by omega⟩
  have HP5 : ∀ j' dx' : Int, worldPt ox oy 5 dx' j' = (ox + k, oy) ↔
      (j' = k ∧ dx' = 0) := by
    intro j' dx'
    rw [worldPt_oct5, Prod.mk.injEq]
    constructor <;> intro h <;> exact ⟨by omega, by omega⟩
  have HP6 : ∀ j' dx' : Int, worldPt ox oy 6 dx' j' = (ox + k, oy) ↔
      (j' = k ∧ dx' = 0) := by
    intro j' dx'
    rw [worldPt_oct6, Prod.mk.injEq]
    constructor <;> intro h <;> exact ⟨by omega, by omega⟩
  rw [show (8 : Nat) = 7 + 1 from rfl, List.range_succ, List.foldl_append]
  rw [show (7 : Nat) = 6 + 1 from rfl, List.range_succ, List.foldl_append]
  rw [show (6 : Nat) = 5 + 1 from rfl, List.range_succ, List.foldl_append]
  rw [show (5 : Nat) = 4 + 1 from rfl, List.range_succ, List.foldl_append]
  rw [show (4 : Nat) = 3 + 1 from rfl, List.range_succ, List.foldl_append]
  rw [show (3 : Nat) = 2 + 1 from rfl, List.range_succ, List.foldl_append]
  rw [show (2 : Nat) = 1 + 1 from rfl, List.range_succ, List.foldl_append]
  rw [show (1 : Nat) = 0 + 1 from rfl, List.range_succ, List.foldl_append]
  simp only [List.range_zero, List.foldl_nil, List.foldl_cons]
  constructor
  · -- the wall is inserted in octant 5 and survives octants 6 and 7
    rw [show ((ox + d, oy) : Coord) = worldPt ox oy 5 0 d from by
      rw [worldPt_oct5]
      norm_num]
    exact cast_light_subset is_opaque ox oy radius 7 _ _ _
      (cast_light_subset is_opaque ox oy radius 6 _ _ _
        (run_wall_octant_mem is_opaque ox oy radius 5 d h1 hdR HW5 _))
  · -- the axis tile behind the wall is never inserted
    have hstage : ∀ (o : Nat),
        o = 0 ∨ o = 1 ∨ o = 2 ∨ o = 3 ∨ o = 4 ∨ o = 7 →
        ∀ v : Finset Coord, (ox + k, oy) ∉ v →
          (ox + k, oy) ∉
            cast_run is_opaque ox oy radius o (.start 1 slope1 slope0) v := by
      intro o ho v hv hmem
      rcases cast_light_insert_shape is_opaque ox oy radius o slope0
        (by decide) (fuelNeed radius (.start 1 slope1 slope0))
        (.start 1 slope1 slope0) v (ox + k, oy) hmem
        ⟨le_refl 1, by decide, le_refl _⟩ with h | ⟨j', dx', hj1, hdx1, hp, -⟩
      · exact hv h
      · exact worldPt_ne_axis ox oy k dx' j' (by omega) hj1 o ho hp.symm
    have h0 : (ox + k, oy) ∉ ({(ox, oy)} : Finset Coord) := by
      rw [Finset.mem_singleton, Prod.mk.injEq]
      rintro ⟨habs, -⟩
      omega
    have n0 := hstage 0 (by tauto) _ h0
    have n1 := hstage 1 (by tauto) _ n0
    have n2 := hstage 2 (by tauto) _ n1
    have n3 := hstage 3 (by tauto) _ n2
    have n4 := hstage 4 (by tauto) _ n3
    have n5 := run_wall_octant_not_mem is_opaque ox oy radius 5 d k
      (ox + k, oy) h1 hdR hk HW5 HP5 _ n4
    have n6 := run_wall_octant_not_mem is_opaque ox oy radius 6 d k
      (ox + k, oy) h1 hdR hk HW6 HP6 _ n5
    exact hstage 7 (by tauto) _ n6

/-! ## Claim C3: opaque tiles and what they block

The claim's first half ("a tile the predicate marks opaque is itself
included whenever it is reachable within the radius") fails: an opaque
tile hidden behind a nearer opaque tile is excluded even though it is
within the radius.  The half that holds is proved for a single opaque
tile on an axis ray, which also covers the claim's concrete instance. -/

/-- C3 (counterexample): with origin `(0,0)`, radius `3` and opaque tiles
exactly `{(1,0), (2,0)}`, the tile `(2,0)` is marked opaque and lies
within the radius, yet it is not in `compute_fov`'s result. -/
theorem compute_fov_hidden_opaque_cex :
    (((2 : Int), (0 : Int)) ∉ compute_fov ⟨0, 0⟩ 3
      (fun x y => decide ((x = 1 ∨ x = 2) ∧ y = 0))) ∧
    ((fun x y : Int => decide ((x = 1 ∨ x = 2) ∧ y = 0)) 2 0 = true) ∧
    ((2 : Int) * 2 + 0 * 0 ≤ 3 * 3) := by
  refine ⟨?_, by decide, by decide⟩
  intro h
  exact (Multiset.count_eq_zero.mp (by decide)) (Finset.mem_def.mp h)

/-- C3 (amended): for every origin, every radius `R`, and the opacity
predicate marking exactly the single tile `origin + (d, 0)` opaque with
`1 ≤ d ≤ R`: the opaque tile itself is in `compute_fov`'s result, and
every tile `origin + (k, 0)` strictly farther along the same axis ray
(`k > d`) is excluded; in particular origin `(0,0)`, radius 10, opaque
`(2,0)` gives `(2,0)` visible and `(3,0)` not visible. -/
theorem compute_fov_single_wall_axis (origin : Point) (radius d k : Int)
    (h1 : 1 ≤ d) (hdR : d ≤ radius) (hk : d < k) :
    ((origin.x + d, origin.y) ∈ compute_fov origin radius
        (fun x y => decide (x = origin.x + d ∧ y = origin.y))) ∧
    ((origin.x + k, origin.y) ∉ compute_fov origin radius
        (fun x y => decide (x = origin.x + d ∧ y = origin.y))) := by
  rw [compute_fov_eq_run]
  exact axis_wall_run _ origin.x origin.y radius d k h1 hdR hk
    (fun x y => decide_eq_true_iff)

set_option maxRecDepth 4000 in
/-- Witness for C3's amended claim at the spec's instance: origin `(0,0)`,
radius `10`, wall at `(2,0)`, blocked tile `(3,0)`. -/
theorem compute_fov_single_wall_axis_witness :
    ((1 : Int) ≤ 2 ∧ (2 : Int) ≤ 10 ∧ (2 : Int) < 3) ∧
    (((Point.mk 0 0).x + 2, (Point.mk 0 0).y) ∈ compute_fov ⟨0, 0⟩ 10
        (fun x y => decide (x = (Point.mk 0 0).x + 2 ∧ y = (Point.mk 0 0).y))) ∧
    (((Point.mk 0 0).x + 3, (Point.mk 0 0).y) ∉ compute_fov ⟨0, 0⟩ 10
        (fun x y => decide (x = (Point.mk 0 0).x + 2 ∧ y = (Point.mk 0 0).y))) :=
  by
  have h1 : (1 : Int) ≤ 2 := by decide
  have h2 : (2 : Int) ≤ 10 := by decide
  have h3 : (2 : Int) < 3 := by decide
  have h := compute_fov_single_wall_axis ⟨0, 0⟩ 10 2 3 h1 h2 h3
  exact ⟨⟨h1, h2, h3⟩, h.1, h.2⟩

end Gamik
